import Mathlib

/-!
Verification of the retrieval/chunking core of a RAG chatbot for a
financial-services knowledge base.

The development shallowly embeds the Python source:
* `search.py` (`SearchEngine`): semantic, keyword and hybrid search;
* `file_processor.py` (`FileProcessor`): chunking, keyword extraction, titles;
* `chromadb_manager.py` (`ChromaDBManager`): delete-by-filename over the store;
* `admin_api.py` (`upload_file`): the ingestion flow;
* `config.py` (`Config.validate_config`): configuration validation.

External collaborators (the ChromaDB collection query, the FAISS index and the
embedding model) are modelled as oracle functions supplied to the engine, since
the source only consumes them through a narrow query interface.  Python `float`
scores are modelled as `ℚ`; Python strings as Lean `String`/`List Char` with
explicit models of `str.lower`, `str.split`, `str.strip` and slicing.
-/

/-! ## Python string primitives -/

/-- Model of the whitespace class used by Python `str.strip()`/`str.split()`
(restricted to the ASCII whitespace characters). -/
def pyIsSpace (c : Char) : Bool :=
  c = ' ' || c = '\t' || c = '\n' || c = '\r' || c = '\x0b' || c = '\x0c'

/-- Model of Python `str.lower` on a single character: ASCII `A`–`Z` and the
Latin-1 uppercase letters `À`–`Þ` (except `×`) are shifted by 32, everything
else is unchanged. -/
def pyLowerChar (c : Char) : Char :=
  if 65 ≤ c.toNat ∧ c.toNat ≤ 90 then Char.ofNat (c.toNat + 32)
  else if 192 ≤ c.toNat ∧ c.toNat ≤ 222 ∧ c.toNat ≠ 215 then Char.ofNat (c.toNat + 32)
  else c

/-- Model of Python `str.lower` on a string. -/
def pyLowerS (s : String) : String :=
  String.mk (s.data.map pyLowerChar)

/-- Helper for `pySplitWs`: accumulates the current word (reversed) while
scanning. -/
def splitWsAux : List Char → List Char → List String
  | acc, [] => if acc.isEmpty then [] else [String.mk acc.reverse]
  | acc, c :: cs =>
    if pyIsSpace c then
      if acc.isEmpty then splitWsAux [] cs
      else String.mk acc.reverse :: splitWsAux [] cs
    else splitWsAux (c :: acc) cs

/-- Model of Python `str.split()` with no separator: split on whitespace runs,
discarding empty pieces. -/
def pySplitWs (s : String) : List String :=
  splitWsAux [] s.data

/-- Left strip: drop leading whitespace (one side of Python `str.strip()`). -/
def lstrip (l : List Char) : List Char :=
  l.dropWhile pyIsSpace

/-- Right strip: drop trailing whitespace. -/
def rstrip (l : List Char) : List Char :=
  (l.reverse.dropWhile pyIsSpace).reverse

/-- Model of Python `str.strip()` on a list of characters. -/
def pyStrip (l : List Char) : List Char :=
  rstrip (lstrip l)

/-- `pyStrip` on `String`. -/
def pyStripS (s : String) : String :=
  String.mk (pyStrip s.data)

/-- Model of Python `needle in hay` on strings (contiguous substring test). -/
def containsSub (needle : List Char) : List Char → Bool
  | [] => needle.isEmpty
  | c :: cs => needle.isPrefixOf (c :: cs) || containsSub needle cs

/-- Model of the Python truthiness test on an optional string (`None` and the
empty string are falsy). -/
def pyTruthyStr : Option String → Bool
  | none => false
  | some s => !(s == "")

/-! ## Python `dict` (insertion-ordered association list) -/

/-- `k in d` for a Python dict. -/
def dictContains (k : String) : List (String × β) → Bool
  | [] => false
  | (k', _) :: rest => k' == k || dictContains k rest

/-- `d[k] = v` for a Python dict: overwrite in place if the key exists
(keeping its position), otherwise append at the end. -/
def dictSet (k : String) (v : β) : List (String × β) → List (String × β)
  | [] => [(k, v)]
  | (k', v') :: rest => if k' = k then (k', v) :: rest else (k', v') :: dictSet k v rest

/-- In-place update of the value at key `k` (no-op when absent). -/
def dictModify (k : String) (f : β → β) : List (String × β) → List (String × β)
  | [] => []
  | (k', v') :: rest => if k' = k then (k', f v') :: rest else (k', v') :: dictModify k f rest

/-- `d.get(k)` for a Python dict. -/
def dictGet (k : String) : List (String × β) → Option β
  | [] => none
  | (k', v') :: rest => if k' = k then some v' else dictGet k rest

/-- The keys of a dict are pairwise distinct. -/
def NodupKeys (d : List (String × β)) : Prop :=
  (d.map (·.1)).Nodup

/-! ## Python `list.sort(key=…, reverse=True)` (stable descending sort) -/

/-- Insert `x` before the first element whose key is `≤ key x` (so that, for
equal keys, earlier elements stay first — Python's stable sort). -/
def insertDesc (key : α → ℚ) (x : α) : List α → List α
  | [] => [x]
  | y :: ys => if key x < key y then y :: insertDesc key x ys else x :: y :: ys

/-- Stable sort by `key`, descending: model of `list.sort(key=…, reverse=True)`. -/
def sortDesc (key : α → ℚ) : List α → List α
  | [] => []
  | x :: xs => insertDesc key x (sortDesc key xs)

/-! ## Python `max(list, default=…)` -/

/-- Model of Python `max(l, default=d)`. -/
def pyMaxD (l : List ℚ) (dflt : ℚ) : ℚ :=
  match l with
  | [] => dflt
  | x :: xs => xs.foldl max x


/-! ## `file_processor.py` — keyword extraction -/

/-- Python word character (`\w` of the `re` module) for the character ranges
relevant here: ASCII alphanumerics, underscore, and Latin-1 letters. -/
def pyIsWordChar (c : Char) : Bool :=
  c.isAlphanum || c == '_' ||
    (decide (192 ≤ c.toNat) && decide (c.toNat ≤ 255) &&
     !(c.toNat == 215) && !(c.toNat == 247))

/-- ASCII letter (the `[a-zA-Z]` class of the keyword regex). -/
def isAsciiLetterB (c : Char) : Bool :=
  (decide (97 ≤ c.toNat) && decide (c.toNat ≤ 122)) ||
  (decide (65 ≤ c.toNat) && decide (c.toNat ≤ 90))

/-- Maximal runs of word characters in a character list (`acc` holds the
current run, reversed). -/
def wordRunsAux : List Char → List Char → List (List Char)
  | acc, [] => if acc.isEmpty then [] else [acc.reverse]
  | acc, c :: cs =>
    if pyIsWordChar c then wordRunsAux (c :: acc) cs
    else if acc.isEmpty then wordRunsAux [] cs
    else acc.reverse :: wordRunsAux [] cs

/-- Model of `re.findall(r'\b[a-zA-Z]{3,}\b', text)`: a match is exactly a
maximal word-character run consisting solely of ASCII letters with length at
least 3 (a run containing a digit, an underscore or an accented letter has no
interior word boundary, so it yields no match at all). -/
def findall_letters (l : List Char) : List (List Char) :=
  (wordRunsAux [] l).filter (fun r => r.all isAsciiLetterB && decide (3 ≤ r.length))

/-- The stop-word set of `FileProcessor._extract_keywords`. -/
def stop_words : List String :=
  ["the", "and", "or", "but", "in", "on", "at", "to", "for", "of", "with", "by",
   "le", "la", "les", "un", "une", "des", "du", "de", "et", "ou", "mais", "dans",
   "sur", "avec", "par", "pour", "que", "qui", "ce", "cette", "ces", "est", "sont"]

/-- One iteration of the frequency-counting loop of
`FileProcessor._extract_keywords`: `word_freq[word] = word_freq.get(word, 0) + 1`
for words kept as keyword candidates. -/
def freqStep (keywords : List String) (d : List (String × Nat)) (w : String) :
    List (String × Nat) :=
  if keywords.contains w then
    if dictContains w d then dictModify w (· + 1) d else dictSet w 1 d
  else d

/-- Model of `FileProcessor._extract_keywords(text, max_keywords)`: collect the
regex word matches of the lowercased text, keep those that are not stop words
and longer than 3 characters, count frequencies in first-occurrence order, and
return the `max_keywords` most frequent (stable descending sort). -/
def extract_keywords (text : String) (max_keywords : Nat) : List String :=
  let words : List String := (findall_letters (pyLowerS text).data).map (fun r => String.mk r)
  let keywords := words.dedup.filter
    (fun w => !(stop_words.contains w) && decide (3 < w.length))
  let word_freq : List (String × Nat) := words.foldl (freqStep keywords) []
  let sorted_keywords := sortDesc (fun p => ((p.2 : Nat) : ℚ)) word_freq
  (sorted_keywords.take max_keywords).map (·.1)

/-! ## `file_processor.py` — titles and chunking -/

/-- Model of `FileProcessor._generate_title`: first sentence (text before the
first `.`), truncated to 97 characters plus an ellipsis when longer than 100;
falls back to `"<filename> - Partie <n>"` when empty. -/
def generate_title (content filename : String) (chunk_index : Nat) : String :=
  let first_sentence := pyStripS (String.mk (content.data.takeWhile (· ≠ '.')))
  let title :=
    if 100 < first_sentence.length then String.mk (first_sentence.data.take 97) ++ "..."
    else first_sentence
  if title = "" then filename ++ " - Partie " ++ Nat.repr (chunk_index + 1) else title

/-- The chunk record built by `FileProcessor._create_chunk_dict` (the random
`uuid4` id, generated outside this logic, is not modelled). -/
structure ChunkDict where
  content : String
  title : String
  keywords : List String
  category : String
  intent : String
  filename : String
  file_type : String
  chunk_index : Nat
  length : Nat
deriving DecidableEq, Repr

/-- Model of `FileProcessor._create_chunk_dict`. -/
def create_chunk_dict (content filename category intent : String)
    (chunk_index : Nat) (file_type : String) : ChunkDict :=
  { content := content
    title := generate_title content filename chunk_index
    keywords := extract_keywords content 10
    category := category
    intent := intent
    filename := filename
    file_type := String.mk (file_type.data.filter (· ≠ '.'))
    chunk_index := chunk_index
    length := content.length }

/-- Is the character one of the sentence delimiters `.`, `!`, `?`. -/
def isSentDelim (c : Char) : Bool :=
  c = '.' || c = '!' || c = '?'

/-- Split at every sentence delimiter (model of `re.split(r'[.!?]+', text)`;
splitting on single delimiters instead of maximal runs yields extra empty
pieces, which the subsequent non-empty filter discards, so the sentence list
is the same). -/
def splitOnDelims : List Char → List (List Char)
  | [] => [[]]
  | c :: cs =>
    match splitOnDelims cs, isSentDelim c with
    | r, true => [] :: r
    | [], false => [[c]]
    | p :: ps, false => (c :: p) :: ps

/-- Python's negative-stop slice `s[-overlap:]` (note the quirk that
`s[-0:]` is the whole string). -/
def pySliceLast (l : List Char) (k : Nat) : List Char :=
  if k = 0 then l else l.drop (l.length - k)

/-- The overlap seed taken from the previous buffer:
`current_chunk[-overlap:] if len(current_chunk) > overlap else current_chunk`. -/
def ovSlice (current : List Char) (overlap : Nat) : List Char :=
  if overlap < current.length then pySliceLast current overlap else current

/-- The running state of the chunking loop of `FileProcessor._create_chunks`. -/
structure ChunkState where
  chunks : List ChunkDict
  current : List Char
  chunk_index : Nat

/-- One iteration of the sentence loop of `FileProcessor._create_chunks`. -/
def chunkStep (filename category intent : String) (chunk_size overlap : Nat)
    (file_type : String) (st : ChunkState) (sentence : List Char) : ChunkState :=
  if chunk_size < st.current.length + 1 + sentence.length ∧ st.current ≠ [] then
    { chunks := st.chunks ++
        [create_chunk_dict (String.mk (pyStrip st.current)) filename category intent
          st.chunk_index file_type]
      current := ovSlice st.current overlap ++ ' ' :: sentence
      chunk_index := st.chunk_index + 1 }
  else
    { st with current := if st.current.isEmpty then sentence else st.current ++ ' ' :: sentence }

/-- Model of `FileProcessor._create_chunks(text, filename, category, intent,
chunk_size, overlap, file_type)`. -/
def create_chunks (text filename category intent : String)
    (chunk_size overlap : Nat) (file_type : String) : List ChunkDict :=
  let sentences := ((splitOnDelims text.data).map pyStrip).filter (fun s => !s.isEmpty)
  let final := sentences.foldl
    (chunkStep filename category intent chunk_size overlap file_type) ⟨[], [], 0⟩
  if !(pyStrip final.current).isEmpty then
    final.chunks ++
      [create_chunk_dict (String.mk (pyStrip final.current)) filename category intent
        final.chunk_index file_type]
  else final.chunks

/-! ## `chromadb_manager.py` / `search.py` — the search engine -/

/-- One row returned by the ChromaDB `collection.query` call (document text,
stored metadata and cosine distance); the collection itself is external and is
modelled as an oracle producing these rows. -/
structure QueryItem where
  id : String
  document : String
  title : String
  category : String
  keywords : List String
  intent : String
  filename : String
  file_type : String
  distance : ℚ
deriving DecidableEq, Repr

/-- A result dict flowing through `search.py`.  `similarity_score` is present
on every ChromaDB-formatted result; `keyword_score` and `final_score` model the
keys that `search_by_keywords` and `hybrid_search` add to the dict copies. -/
structure RChunk where
  id : String
  content : String
  title : String
  category : String
  keywords : List String
  intent : String
  filename : String
  file_type : String
  similarity_score : ℚ
  distance : ℚ
  keyword_score : Option ℚ
  final_score : Option ℚ
deriving DecidableEq, Repr

/-- The state of a `SearchEngine` instance.  `chroma` is the external ChromaDB
collection (query oracle); `faiss_search` and `faiss_chunks` model the FAISS
fallback index and the in-memory chunk list of the embedding manager. -/
structure SearchEngine where
  use_chromadb : Bool
  chroma : String → Nat → Option String → List QueryItem
  faiss_index_some : Bool
  faiss_search : String → Nat → List (ℚ × Int)
  faiss_chunks : List RChunk
  SIMILARITY_THRESHOLD : ℚ
  TOP_K_RESULTS : Nat

/-- Model of `ChromaDBManager.search_similar`: build the where-clause only for
a truthy category filter, query the collection, and format each row with
`similarity_score = 1 - distance`. -/
def search_similar (e : SearchEngine) (query : String) (top_k : Nat)
    (category_filter : Option String) : List RChunk :=
  let where_clause := if pyTruthyStr category_filter then category_filter else none
  (e.chroma query top_k where_clause).map fun it =>
    { id := it.id
      content := it.document
      title := it.title
      category := it.category
      keywords := it.keywords
      intent := it.intent
      filename := it.filename
      file_type := it.file_type
      similarity_score := 1 - it.distance
      distance := it.distance
      keyword_score := none
      final_score := none }

/-- Model of `SearchEngine._search_chromadb`: keep only the results whose
similarity score reaches `SIMILARITY_THRESHOLD`. -/
def search_chromadb (e : SearchEngine) (query : String) (top_k : Nat)
    (category_filter : Option String) : List RChunk :=
  (search_similar e query top_k category_filter).filter
    (fun r => e.SIMILARITY_THRESHOLD ≤ r.similarity_score)

/-- One iteration of the `_search_faiss` result loop: skip `-1` indices, skip
category mismatches (for a truthy filter), skip scores below the threshold,
otherwise append a copy of the chunk carrying the FAISS score. -/
def faissStep (e : SearchEngine) (category_filter : Option String)
    (acc : List RChunk) (p : ℚ × Int) : List RChunk :=
  if p.2 = -1 then acc
  else
    match e.faiss_chunks.get? p.2.toNat with
    | none => acc
    | some chunk =>
      if pyTruthyStr category_filter ∧ some chunk.category ≠ category_filter then acc
      else if p.1 < e.SIMILARITY_THRESHOLD then acc
      else acc ++ [{ chunk with similarity_score := p.1 }]

/-- Model of `SearchEngine._search_faiss`: search the index with `top_k * 2`,
filter, and truncate to `top_k`. -/
def search_faiss (e : SearchEngine) (query : String) (top_k : Nat)
    (category_filter : Option String) : List RChunk :=
  if !e.faiss_index_some then []
  else
    ((e.faiss_search query (top_k * 2)).foldl (faissStep e category_filter) []).take top_k

/-- Model of `SearchEngine.search_semantic` (with `top_k = None` defaulting to
`TOP_K_RESULTS`). -/
def search_semantic (e : SearchEngine) (query : String) (top_k : Option Nat)
    (category_filter : Option String) : List RChunk :=
  let tk := top_k.getD e.TOP_K_RESULTS
  if e.use_chromadb then search_chromadb e query tk category_filter
  else search_faiss e query tk category_filter

/-- The keyword score of one candidate chunk against the deduplicated
lowercased query tokens, as computed inside `search_by_keywords`:
`2 *` (distinct query tokens among the lowercased chunk keywords) `+`
(distinct query tokens among the lowercased content tokens). -/
def keywordScoreOf (query_words : List String) (chunk : RChunk) : Nat :=
  let chunk_keywords := chunk.keywords.map pyLowerS
  let keyword_matches := (query_words.filter (fun w => chunk_keywords.contains w)).length
  let content_words := pySplitWs (pyLowerS chunk.content)
  let content_matches := (query_words.filter (fun w => content_words.contains w)).length
  keyword_matches * 2 + content_matches

/-- One iteration of the candidate loop of `search_by_keywords`: candidates
with score 0 are skipped entirely, the others get a copy carrying
`keyword_score`. -/
def keywordStep (query_words : List String) (acc : List RChunk) (chunk : RChunk) :
    List RChunk :=
  if 0 < keywordScoreOf query_words chunk then
    acc ++ [{ chunk with
      keyword_score := some ((keywordScoreOf query_words chunk : Nat) : ℚ) }]
  else acc

/-- Model of `SearchEngine.search_by_keywords`: fetch the candidate pool
(`top_k * 3` similar chunks for ChromaDB, the whole in-memory list for FAISS),
keep the candidates with a positive keyword score, sort by score descending
(stable) and truncate to `top_k`. -/
def search_by_keywords (e : SearchEngine) (query : String) (top_k : Option Nat) :
    List RChunk :=
  let tk := top_k.getD e.TOP_K_RESULTS
  let query_words := (pySplitWs (pyLowerS query)).dedup
  let chunks := if e.use_chromadb then search_similar e query (tk * 3) none else e.faiss_chunks
  let results := chunks.foldl (keywordStep query_words) []
  (sortDesc (fun r => r.keyword_score.getD 0) results).take tk

/-- One entry of the `combined_scores` dict of `hybrid_search`. -/
structure Combined where
  chunk : RChunk
  semantic_score : ℚ
  keyword_score : ℚ
deriving DecidableEq, Repr

/-- One iteration of the semantic-result loop of `hybrid_search`: write the
entry for the result's id (`semantic_score` from the result, `keyword_score`
0). -/
def semStep (d : List (String × Combined)) (r : RChunk) : List (String × Combined) :=
  dictSet r.id ⟨r, r.similarity_score, 0⟩ d

/-- One iteration of the keyword-result loop of `hybrid_search`: update the
`keyword_score` of an existing entry, or append a new entry with semantic
score 0. -/
def kwStep (d : List (String × Combined)) (r : RChunk) : List (String × Combined) :=
  if dictContains r.id d then
    dictModify r.id (fun v => { v with keyword_score := r.keyword_score.getD 0 }) d
  else dictSet r.id ⟨r, 0, r.keyword_score.getD 0⟩ d

/-- The `combined_scores` dict of `hybrid_search`: semantic results are written
first, keyword results are then merged in. -/
def hybrid_combine (semantic_results keyword_results : List RChunk) :
    List (String × Combined) :=
  keyword_results.foldl kwStep (semantic_results.foldl semStep [])

/-- The normalisation and weighting step of `hybrid_search`: each channel is
divided by its maximum over the merged set (`max(…, default=1)`, with a whole
channel collapsing to 0 when its maximum is not positive), and the final score
is the weighted sum. -/
def hybrid_finalize (semantic_weight : ℚ) (d : List (String × Combined)) : List RChunk :=
  let vals := d.map (·.2)
  let max_semantic := pyMaxD (vals.map (·.semantic_score)) 1
  let max_keyword := pyMaxD (vals.map (·.keyword_score)) 1
  vals.map (fun cd =>
    let norm_semantic := if 0 < max_semantic then cd.semantic_score / max_semantic else 0
    let norm_keyword := if 0 < max_keyword then cd.keyword_score / max_keyword else 0
    { cd.chunk with
      final_score := some (semantic_weight * norm_semantic +
        (1 - semantic_weight) * norm_keyword) })

/-- Model of `SearchEngine.hybrid_search`: run semantic and keyword search with
`top_k + 3`, merge by chunk id, normalise, weight, sort by final score
descending and truncate to `top_k`. -/
def hybrid_search (e : SearchEngine) (query : String) (top_k : Option Nat)
    (semantic_weight : ℚ) : List RChunk :=
  let tk := top_k.getD e.TOP_K_RESULTS
  let semantic_results := search_semantic e query (some (tk + 3)) none
  let keyword_results := search_by_keywords e query (some (tk + 3))
  let final_results := hybrid_finalize semantic_weight
    (hybrid_combine semantic_results keyword_results)
  (sortDesc (fun r => r.final_score.getD 0) final_results).take tk

/-- The intent-pattern table set up in `SearchEngine.__init__`. -/
def intent_patterns : List (String × List String) :=
  [("pricing", ["prix", "coût", "tarif", "combien", "frais", "facturation"]),
   ("comparison", ["différence", "comparer", "mieux", "choisir", "avantage", "vs"]),
   ("contact", ["contact", "téléphone", "email", "rendez-vous", "joindre"]),
   ("definition", ["qu'est-ce", "définition", "c'est quoi", "signifie"]),
   ("process", ["comment", "étapes", "procédure", "démarche"]),
   ("requirements", ["conditions", "critères", "éligible", "requis"])]

/-- Model of `SearchEngine.classify_intent`: the first intent one of whose
trigger phrases is a substring of the lowercased query; `"general"` otherwise. -/
def classify_intent (query : String) : String :=
  let query_lower := (pyLowerS query).data
  ((intent_patterns.find? (fun p => p.2.any (fun kw => containsSub kw.data query_lower))).map
    (·.1)).getD "general"

/-- The response dict of `SearchEngine.search`. -/
structure SearchResponse where
  query : String
  intent : String
  results : List RChunk
  num_results : Nat
deriving DecidableEq, Repr

/-- Model of `SearchEngine.search`: dispatch on the search type (anything other
than `"semantic"` and `"keyword"` falls through to hybrid search with the
default `semantic_weight = 0.7`); only the semantic branch receives the
category filter. -/
def SearchEngine.search (e : SearchEngine) (query : String) (search_type : String)
    (top_k : Option Nat) (category_filter : Option String) : SearchResponse :=
  let intent := classify_intent query
  let results :=
    if search_type = "semantic" then search_semantic e query top_k category_filter
    else if search_type = "keyword" then search_by_keywords e query top_k
    else hybrid_search e query top_k (7 / 10)
  { query := query, intent := intent, results := results, num_results := results.length }

/-! ## `chromadb_manager.py` — deletion, and `admin_api.py` — upload flow -/

/-- A chunk as persisted in the collection, reduced to the fields the deletion
and upload logic reads (its id and its `filename` metadata). -/
structure StoredChunk where
  id : String
  filename : String
deriving DecidableEq, Repr

/-- Model of `ChromaDBManager.delete_chunks_by_filename`: fetch the ids of all
chunks whose `filename` metadata matches, delete those ids and return `True`
if the id list was non-empty, return `False` otherwise (the not-found case
returns `False` instead of raising). -/
def delete_chunks_by_filename (filename : String) (store : List StoredChunk) :
    List StoredChunk × Bool :=
  let ids := (store.filter (fun c => c.filename == filename)).map (·.id)
  if ids.isEmpty then (store, false)
  else (store.filter (fun c => !(ids.contains c.id)), true)

/-- The state touched by the admin upload flow: the upload folder on disk
(filenames present) and the chunk store. -/
structure AdminState where
  uploadFolder : List String
  store : List StoredChunk
deriving DecidableEq, Repr

/-- Model of the success path of `upload_file` in `admin_api.py`: the prior
chunks of `filename` are deleted only when the previously uploaded file still
exists on disk; the file is then saved, the new chunks are added, and the
uploaded file is removed again (“keep only processed chunks”). -/
def upload_file (st : AdminState) (filename : String) (chunks : List StoredChunk) :
    AdminState :=
  let st1 :=
    if st.uploadFolder.contains filename then
      { uploadFolder := st.uploadFolder.erase filename
        store := (delete_chunks_by_filename filename st.store).1 }
    else st
  let folder1 := st1.uploadFolder ++ [filename]
  let store1 := st1.store ++ chunks
  { uploadFolder := folder1.erase filename, store := store1 }

/-! ## `config.py` — configuration validation -/

/-- The configuration fields read by `Config.validate_config`, together with
the chunking profiles `CHUNK_CONFIGS` (name, size, overlap). -/
structure PyConfig where
  USE_CHROMADB : Bool
  MISTRAL_API_KEY : String
  MAX_FILE_SIZE : Int
  API_PORT : Int
  ADMIN_API_PORT : Int
  CHUNK_CONFIGS : List (String × Nat × Nat)
deriving DecidableEq, Repr

/-- Model of `Config.validate_config`: collect the error messages of the five
checks and fail iff at least one check failed. -/
def validate_config (cfg : PyConfig) : Except String Unit :=
  let errors : List String :=
    (if cfg.USE_CHROMADB ∧ cfg.MISTRAL_API_KEY = "" then ["MISTRAL_API_KEY est requis"] else [])
    ++ (if cfg.MAX_FILE_SIZE ≤ 0 then ["MAX_FILE_SIZE doit être positif"] else [])
    ++ (if ¬(1024 ≤ cfg.API_PORT ∧ cfg.API_PORT ≤ 65535) then
          ["API_PORT doit être entre 1024 et 65535"] else [])
    ++ (if ¬(1024 ≤ cfg.ADMIN_API_PORT ∧ cfg.ADMIN_API_PORT ≤ 65535) then
          ["ADMIN_API_PORT doit être entre 1024 et 65535"] else [])
    ++ (if cfg.API_PORT = cfg.ADMIN_API_PORT then
          ["API_PORT et ADMIN_API_PORT doivent être différents"] else [])
  if errors.isEmpty then Except.ok ()
  else Except.error (String.intercalate "; " errors)


/-! ## Claim-level predicates and concrete fixtures -/

/-- The last `k` characters of `l` (for `k ≤ l.length`). -/
def lastN (l : List Char) (k : Nat) : List Char :=
  l.drop (l.length - k)

/-- The overlap property exactly as the specification states it: the last
`min(overlap, len(C_i))` characters of a chunk's content are a prefix of the
next chunk's content. -/
def overlapRel (overlap : Nat) (c1 c2 : ChunkDict) : Prop :=
  lastN c1.content.data (min overlap c1.content.length) <+: c2.content.data

/-- The corrected overlap property: the same suffix of `C_i`, after removing
leading whitespace, is a prefix of `C_{i+1}`'s content (the stored chunk is the
`strip()`ped buffer while the overlap seed is sliced from the unstripped
buffer, so a leading space of the seed disappears from the stored content). -/
def overlapRelStripped (overlap : Nat) (c1 c2 : ChunkDict) : Prop :=
  lstrip (lastN c1.content.data (min overlap c1.content.length)) <+: c2.content.data

/-- The keyword-search score written the way the specification states it:
`2 × |query_tokens ∩ chunk.keywords| + 1 × |query_tokens ∩ chunk.content_tokens|`
with sets of distinct lowercased tokens. -/
def specKeywordScore (query : String) (chunk : RChunk) : Nat :=
  2 * ((pySplitWs (pyLowerS query)).toFinset ∩ ((chunk.keywords.map pyLowerS).toFinset)).card
    + ((pySplitWs (pyLowerS query)).toFinset ∩ (pySplitWs (pyLowerS chunk.content)).toFinset).card

/-- A collection row whose chunk is semantically close to the demo query and
also carries its keyword. -/
def demoItemPricing : QueryItem :=
  { id := "c1", document := "tarif info", title := "T1", category := "pricing",
    keywords := ["tarif"], intent := "general", filename := "f1", file_type := "txt",
    distance := 1 / 10 }

/-- A second collection row: semantically relevant but keyword-unrelated. -/
def demoItemOther : QueryItem :=
  { id := "c2", document := "autre", title := "T2", category := "general",
    keywords := [], intent := "general", filename := "f2", file_type := "txt",
    distance := 1 / 4 }

/-- A concrete engine over a two-row collection, used to instantiate the search
theorems. -/
def demoEngine : SearchEngine :=
  { use_chromadb := true
    chroma := fun _ _ _ => [demoItemPricing, demoItemOther]
    faiss_index_some := false
    faiss_search := fun _ _ => []
    faiss_chunks := []
    SIMILARITY_THRESHOLD := 7 / 10
    TOP_K_RESULTS := 3 }

/-- A collection row whose similarity (`1 - 9/10 = 1/10`) is far below the
threshold but which carries the query keyword. -/
def subThresholdItem : QueryItem :=
  { id := "c1", document := "tarif", title := "T", category := "pricing",
    keywords := ["tarif"], intent := "general", filename := "f1", file_type := "txt",
    distance := 9 / 10 }

/-- An engine whose only stored chunk is below the similarity threshold. -/
def subThresholdEngine : SearchEngine :=
  { use_chromadb := true
    chroma := fun _ _ _ => [subThresholdItem]
    faiss_index_some := false
    faiss_search := fun _ _ => []
    faiss_chunks := []
    SIMILARITY_THRESHOLD := 7 / 10
    TOP_K_RESULTS := 3 }

/-- A small concrete store for the deletion theorems. -/
def demoStore : List StoredChunk :=
  [{ id := "1", filename := "a.txt" }, { id := "2", filename := "b.txt" },
   { id := "3", filename := "a.txt" }]

/-- A configuration whose `faq` chunking profile has `overlap = size = 300`
while every check `validate_config` actually performs passes. -/
def overlapConfig : PyConfig :=
  { USE_CHROMADB := true, MISTRAL_API_KEY := "key", MAX_FILE_SIZE := 52428800,
    API_PORT := 8000, ADMIN_API_PORT := 8001, CHUNK_CONFIGS := [("faq", 300, 300)] }

/-- The formatted search result that `search_similar` produces from
`demoItemPricing` (similarity `1 - 1/10 = 9/10`). -/
def demoSemanticResult : RChunk :=
  { id := "c1", content := "tarif info", title := "T1", category := "pricing",
    keywords := ["tarif"], intent := "general", filename := "f1", file_type := "txt",
    similarity_score := 9 / 10, distance := 1 / 10, keyword_score := none,
    final_score := none }

/-- The keyword-search result that `search_by_keywords` produces from
`demoItemPricing` on the query `"tarif"` (keyword match 1, content match 1,
score `1 * 2 + 1 = 3`). -/
def demoKeywordResult : RChunk :=
  { id := "c1", content := "tarif info", title := "T1", category := "pricing",
    keywords := ["tarif"], intent := "general", filename := "f1", file_type := "txt",
    similarity_score := 9 / 10, distance := 1 / 10, keyword_score := some 3,
    final_score := none }

/-- The chunk that `hybrid_search` returns on `subThresholdEngine`: similarity
`1/10`, keyword score 3, final score `(7/10)*0 + (3/10)*1 = 3/10`. -/
def subThresholdHybridResult : RChunk :=
  { id := "c1", content := "tarif", title := "T", category := "pricing",
    keywords := ["tarif"], intent := "general", filename := "f1", file_type := "txt",
    similarity_score := 1 / 10, distance := 9 / 10, keyword_score := some 3,
    final_score := some (3 / 10) }

/-- The final score `hybrid_finalize` assigns to a merged entry `cd` of the
dict `d` (each channel divided by its maximum over the merged set, maxima that
are not positive collapsing the channel to 0, then the weighted sum). -/
def finalScoreOf (w : ℚ) (d : List (String × Combined)) (cd : Combined) : ℚ :=
  w * (if 0 < pyMaxD ((d.map (·.2)).map (·.semantic_score)) 1 then
        cd.semantic_score / pyMaxD ((d.map (·.2)).map (·.semantic_score)) 1 else 0)
  + (1 - w) * (if 0 < pyMaxD ((d.map (·.2)).map (·.keyword_score)) 1 then
        cd.keyword_score / pyMaxD ((d.map (·.2)).map (·.keyword_score)) 1 else 0)

/-- The list is non-empty and its last character is not whitespace (every
buffer of the chunking loop ends with a stripped, non-empty sentence). -/
def endsNonWs (l : List Char) : Prop :=
  match l.reverse with
  | [] => False
  | c :: _ => pyIsSpace c = false

/-! # Supporting lemmas -/

/-! ## Stable descending sort -/

theorem insertDesc_perm (key : α → ℚ) (x : α) (l : List α) :
    (insertDesc key x l).Perm (x :: l) := by
  induction l with
  | nil => rfl
  | cons y ys ih =>
    unfold insertDesc
    by_cases h : key x < key y
    · simp only [if_pos h]
      exact (ih.cons y).trans (List.Perm.swap x y ys)
    · simp only [if_neg h]
      exact List.Perm.refl _

theorem sortDesc_perm (key : α → ℚ) (l : List α) : (sortDesc key l).Perm l := by
  induction l with
  | nil => rfl
  | cons x xs ih => exact (insertDesc_perm key x (sortDesc key xs)).trans (ih.cons x)

theorem mem_sortDesc {key : α → ℚ} {l : List α} {a : α} :
    a ∈ sortDesc key l ↔ a ∈ l :=
  (sortDesc_perm key l).mem_iff

theorem pairwise_insertDesc {key : α → ℚ} {x : α} {l : List α}
    (h : l.Pairwise (fun a b => key b ≤ key a)) :
    (insertDesc key x l).Pairwise (fun a b => key b ≤ key a) := by
  induction l with
  | nil => simp [insertDesc]
  | cons y ys ih =>
    rcases List.pairwise_cons.1 h with ⟨hy, hys⟩
    unfold insertDesc
    by_cases hxy : key x < key y
    · simp only [if_pos hxy]
      refine List.pairwise_cons.2 ⟨?_, ih hys⟩
      intro z hz
      rcases List.mem_cons.1 ((insertDesc_perm key x ys).mem_iff.1 hz) with hz' | hz'
      · exact le_of_lt (by simpa [hz'] using hxy)
      · exact hy z hz'
    · simp only [if_neg hxy]
      refine List.pairwise_cons.2 ⟨?_, h⟩
      intro z hz
      rcases List.mem_cons.1 hz with hz' | hz'
      · simpa [hz'] using le_of_not_lt hxy
      · exact le_trans (hy z hz') (le_of_not_lt hxy)

theorem pairwise_sortDesc (key : α → ℚ) (l : List α) :
    (sortDesc key l).Pairwise (fun a b => key b ≤ key a) := by
  induction l with
  | nil => simp [sortDesc]
  | cons x xs ih => exact pairwise_insertDesc ih

theorem sortDesc_cons_of_strictmax {key : α → ℚ} {l : List α} {m : α}
    (hm : m ∈ l) (hmax : ∀ y ∈ l, y ≠ m → key y < key m) :
    ∃ t, sortDesc key l = m :: t := by
  induction l with
  | nil => cases hm
  | cons a l' ih =>
    by_cases ham : a = m
    · subst ham
      unfold sortDesc
      have hall : ∀ z ∈ sortDesc key l', key z ≤ key a := by
        intro z hz
        have hz' : z ∈ l' := mem_sortDesc.1 hz
        by_cases hzm : z = a
        · simp [hzm]
        · exact le_of_lt (hmax z (List.mem_cons_of_mem _ hz') hzm)
      cases hsort : sortDesc key l' with
      | nil => exact ⟨[], by simp [insertDesc]⟩
      | cons z zs =>
        have hz : key z ≤ key a := hall z (by simp [hsort])
        refine ⟨z :: zs, ?_⟩
        simp [insertDesc, not_lt_of_le hz]
    · have hm' : m ∈ l' := by
        rcases List.mem_cons.1 hm with h | h
        · exact absurd h.symm ham
        · exact h
      have hmax' : ∀ y ∈ l', y ≠ m → key y < key m := fun y hy =>
        hmax y (List.mem_cons_of_mem _ hy)
      rcases ih hm' hmax' with ⟨t, ht⟩
      have ha : key a < key m := hmax a (List.mem_cons_self _ _) ham
      refine ⟨insertDesc key a t, ?_⟩
      unfold sortDesc
      rw [ht]
      simp [insertDesc, ha]

/-! ## `pyMaxD` -/

theorem le_foldl_max_init (l : List ℚ) (b : ℚ) : b ≤ l.foldl max b := by
  induction l generalizing b with
  | nil => simp
  | cons x xs ih => exact le_trans (le_max_left b x) (ih (max b x))

theorem le_foldl_max_of_mem {l : List ℚ} {a : ℚ} (h : a ∈ l) (b : ℚ) :
    a ≤ l.foldl max b := by
  induction l generalizing b with
  | nil => cases h
  | cons x xs ih =>
    rcases List.mem_cons.1 h with h' | h'
    · subst h'
      exact le_trans (le_max_right b a) (le_foldl_max_init xs (max b a))
    · exact ih h' (max b x)

theorem foldl_max_mem (l : List ℚ) (b : ℚ) : l.foldl max b = b ∨ l.foldl max b ∈ l := by
  induction l generalizing b with
  | nil => left; rfl
  | cons x xs ih =>
    have hfc : (x :: xs).foldl max b = xs.foldl max (max b x) := rfl
    rcases ih (max b x) with h | h
    · rcases max_choice b x with hc | hc
      · left; rw [hfc, h, hc]
      · right; rw [hfc, h, hc]; exact List.mem_cons_self _ _
    · right; rw [hfc]; exact List.mem_cons_of_mem _ h

theorem le_pyMaxD {l : List ℚ} {a : ℚ} (h : a ∈ l) (d : ℚ) : a ≤ pyMaxD l d := by
  cases l with
  | nil => cases h
  | cons x xs =>
    unfold pyMaxD
    rcases List.mem_cons.1 h with h' | h'
    · subst h'; exact le_foldl_max_init xs a
    · exact le_foldl_max_of_mem h' x

theorem pyMaxD_mem {l : List ℚ} (h : l ≠ []) (d : ℚ) : pyMaxD l d ∈ l := by
  cases l with
  | nil => exact absurd rfl h
  | cons x xs =>
    unfold pyMaxD
    rcases foldl_max_mem xs x with h' | h'
    · simp [h']
    · exact List.mem_cons_of_mem _ h'

/-! ## Python dict lemmas -/

theorem dictSet_map_fst_of_mem {β : Type _} (k : String) (v : β) (d : List (String × β))
    (h : k ∈ d.map (·.1)) : (dictSet k v d).map (·.1) = d.map (·.1) := by
  induction d with
  | nil => simp at h
  | cons p rest ih =>
    unfold dictSet
    by_cases hk : p.1 = k
    · simp [hk]
    · have h' : k ∈ rest.map (·.1) := by
        rcases List.mem_map.1 h with ⟨q, hq, hq1⟩
        rcases List.mem_cons.1 hq with hq' | hq'
        · exact absurd (hq' ▸ hq1) hk
        · exact List.mem_map.2 ⟨q, hq', hq1⟩
      simp [hk, ih h']

theorem dictSet_map_fst_of_not_mem {β : Type _} (k : String) (v : β) (d : List (String × β))
    (h : k ∉ d.map (·.1)) : (dictSet k v d).map (·.1) = d.map (·.1) ++ [k] := by
  induction d with
  | nil => simp [dictSet]
  | cons p rest ih =>
    unfold dictSet
    by_cases hk : p.1 = k
    · exact absurd (by simp [hk]) h
    · have h' : k ∉ rest.map (·.1) := fun hc => h (by simp [hc])
      simp [hk, ih h']

theorem nodupKeys_dictSet {β : Type _} {k : String} {v : β} {d : List (String × β)}
    (h : NodupKeys d) : NodupKeys (dictSet k v d) := by
  unfold NodupKeys at *
  by_cases hk : k ∈ d.map (·.1)
  · rw [dictSet_map_fst_of_mem k v d hk]; exact h
  · rw [dictSet_map_fst_of_not_mem k v d hk]
    rw [List.nodup_append]
    exact ⟨h, List.nodup_singleton k, by
      intro a ha hak
      rcases List.mem_singleton.1 hak with rfl
      exact hk ha⟩

theorem dictModify_map_fst {β : Type _} (k : String) (f : β → β) (d : List (String × β)) :
    (dictModify k f d).map (·.1) = d.map (·.1) := by
  induction d with
  | nil => rfl
  | cons p rest ih =>
    unfold dictModify
    by_cases hk : p.1 = k <;> simp [hk, ih]

theorem nodupKeys_dictModify {β : Type _} {k : String} {f : β → β} {d : List (String × β)}
    (h : NodupKeys d) : NodupKeys (dictModify k f d) := by
  unfold NodupKeys at *
  rw [dictModify_map_fst]; exact h

theorem mem_dictSet {β : Type _} {k : String} {v : β} {d : List (String × β)} {p : String × β}
    (h : p ∈ dictSet k v d) : p = (k, v) ∨ p ∈ d := by
  induction d with
  | nil => simpa [dictSet] using h
  | cons q rest ih =>
    unfold dictSet at h
    by_cases hk : q.1 = k
    · simp only [if_pos hk] at h
      rcases List.mem_cons.1 h with h' | h'
      · left; rw [h', hk]
      · right; exact List.mem_cons_of_mem _ h'
    · simp only [if_neg hk] at h
      rcases List.mem_cons.1 h with h' | h'
      · right; rw [h']; exact List.mem_cons_self _ _
      · rcases ih h' with h'' | h''
        · exact Or.inl h''
        · exact Or.inr (List.mem_cons_of_mem _ h'')

theorem mem_dictModify {β : Type _} {k : String} {f : β → β} {d : List (String × β)}
    {p : String × β} (h : p ∈ dictModify k f d) :
    (∃ v₀, (k, v₀) ∈ d ∧ p = (k, f v₀)) ∨ p ∈ d := by
  induction d with
  | nil => simp [dictModify] at h
  | cons q rest ih =>
    unfold dictModify at h
    by_cases hk : q.1 = k
    · simp only [if_pos hk] at h
      rcases List.mem_cons.1 h with h' | h'
      · left
        refine ⟨q.2, ?_, by rw [h', hk]⟩
        rw [← hk]
        exact List.mem_cons_self _ _
      · right; exact List.mem_cons_of_mem _ h'
    · simp only [if_neg hk] at h
      rcases List.mem_cons.1 h with h' | h'
      · right; rw [h']; exact List.mem_cons_self _ _
      · rcases ih h' with ⟨v₀, hv₀, hp⟩ | h''
        · exact Or.inl ⟨v₀, List.mem_cons_of_mem _ hv₀, hp⟩
        · exact Or.inr (List.mem_cons_of_mem _ h'')

theorem dictGet_dictSet_self {β : Type _} (k : String) (v : β) (d : List (String × β)) :
    dictGet k (dictSet k v d) = some v := by
  induction d with
  | nil => simp [dictSet, dictGet]
  | cons q rest ih =>
    unfold dictSet
    by_cases hk : q.1 = k <;> simp [dictGet, hk, ih]

theorem dictGet_dictSet_ne {β : Type _} {k k' : String} (h : k' ≠ k) (v : β)
    (d : List (String × β)) : dictGet k (dictSet k' v d) = dictGet k d := by
  induction d with
  | nil => simp [dictSet, dictGet, h]
  | cons q rest ih =>
    unfold dictSet
    by_cases hk : q.1 = k'
    · have hqk : q.1 ≠ k := by rw [hk]; exact h
      simp [dictGet, hk, hqk, h]
    · by_cases hk2 : q.1 = k <;> simp [dictGet, dictSet, hk, hk2, ih, h, Ne.symm h]

theorem dictGet_dictModify_self {β : Type _} (k : String) (f : β → β)
    (d : List (String × β)) : dictGet k (dictModify k f d) = (dictGet k d).map f := by
  induction d with
  | nil => simp [dictModify, dictGet]
  | cons q rest ih =>
    unfold dictModify
    by_cases hk : q.1 = k <;> simp [dictGet, hk, ih]

theorem dictGet_dictModify_ne {β : Type _} {k k' : String} (h : k' ≠ k) (f : β → β)
    (d : List (String × β)) : dictGet k (dictModify k' f d) = dictGet k d := by
  induction d with
  | nil => simp [dictModify, dictGet]
  | cons q rest ih =>
    unfold dictModify
    by_cases hk : q.1 = k'
    · have hqk : q.1 ≠ k := by rw [hk]; exact h
      simp [dictGet, hk, hqk, h]
    · by_cases hk2 : q.1 = k <;> simp [dictGet, dictModify, hk, hk2, ih, h, Ne.symm h]

theorem dictGet_mem {β : Type _} {k : String} {v : β} {d : List (String × β)}
    (h : dictGet k d = some v) : (k, v) ∈ d := by
  induction d with
  | nil => simp [dictGet] at h
  | cons q rest ih =>
    unfold dictGet at h
    by_cases hk : q.1 = k
    · simp only [if_pos hk] at h
      have hqp : q = (k, v) := by
        obtain ⟨q1, q2⟩ := q
        simp only at hk
        simp only [Option.some.injEq] at h
        rw [hk, h]
      rw [← hqp]
      exact List.mem_cons_self _ _
    · simp only [if_neg hk] at h
      exact List.mem_cons_of_mem _ (ih h)

theorem dictGet_of_mem_nodup {β : Type _} {k : String} {v : β} {d : List (String × β)}
    (hd : NodupKeys d) (h : (k, v) ∈ d) : dictGet k d = some v := by
  induction d with
  | nil => cases h
  | cons q rest ih =>
    have hd' : q.1 ∉ rest.map (·.1) ∧ NodupKeys rest := by
      simpa [NodupKeys, List.nodup_cons] using hd
    rcases List.mem_cons.1 h with h' | h'
    · rw [← h']
      simp [dictGet]
    · have hk : q.1 ≠ k := fun hc =>
        hd'.1 (hc ▸ List.mem_map.2 ⟨(k, v), h', rfl⟩)
      simp [dictGet, hk, ih hd'.2 h']

theorem dictContains_true_of_get {β : Type _} {k : String} {v : β} {d : List (String × β)}
    (h : dictGet k d = some v) : dictContains k d = true := by
  induction d with
  | nil => simp [dictGet] at h
  | cons q rest ih =>
    unfold dictGet at h
    unfold dictContains
    by_cases hk : q.1 = k
    · simp [hk]
    · simp only [if_neg hk] at h
      simp [hk, ih h]

/-! ## Counting helpers -/

theorem count_snd_eq_one {β : Type _} [DecidableEq β] {d : List (String × β)} {k : String}
    {v : β} (hd : NodupKeys d) (hm : (k, v) ∈ d) (hkey : ∀ p ∈ d, p.2 = v → p.1 = k) :
    (d.map (·.2)).count v = 1 := by
  induction d with
  | nil => cases hm
  | cons q rest ih =>
    have hd' : q.1 ∉ rest.map (·.1) ∧ NodupKeys rest := by
      simpa [NodupKeys, List.nodup_cons] using hd
    rcases List.mem_cons.1 hm with h' | h'
    · have hrest0 : ∀ x ∈ rest.map (·.2), x ≠ v := by
        intro x hx hxv
        rcases List.mem_map.1 hx with ⟨p, hp, hpx⟩
        have : p.1 = k := hkey p (List.mem_cons_of_mem _ hp) (hpx.trans hxv ▸ rfl)
        exact hd'.1 (by
          rw [← h']
          exact this ▸ List.mem_map.2 ⟨p, hp, rfl⟩)
      have hcount0 : (rest.map (·.2)).count v = 0 :=
        List.count_eq_zero.2 (fun hc => hrest0 v hc rfl)
      rw [← h']
      simp [List.count_cons, hcount0]
    · have hqv : q.2 ≠ v := by
        intro hc
        have : q.1 = k := hkey q (List.mem_cons_self _ _) hc
        exact hd'.1 (this ▸ List.mem_map.2 ⟨(k, v), h', rfl⟩)
      have : (rest.map (·.2)).count v = 1 :=
        ih hd'.2 h' (fun p hp => hkey p (List.mem_cons_of_mem _ hp))
      simp [List.count_cons, hqv, this]

theorem count_map_eq_count {β : Type _} [DecidableEq α] [DecidableEq β] (f : α → β)
    (l : List α) (a : α) (hf : ∀ b ∈ l, f b = f a → b = a) :
    (l.map f).count (f a) = l.count a := by
  induction l with
  | nil => rfl
  | cons b l' ih =>
    have ih' := ih (fun c hc => hf c (List.mem_cons_of_mem _ hc))
    by_cases hb : b = a
    · simp [List.count_cons, hb, ih']
    · have hfb : f b ≠ f a := fun hc => hb (hf b (List.mem_cons_self _ _) hc)
      simp [List.count_cons, hb, hfb, ih']

/-! # Claim theorems -/

/-- **C4, counterexample.**  A configuration whose `faq` chunking profile has
`overlap ≥ size` passes `validate_config` (`Except.ok`): the validation does
not reject `overlap ≥ target_size`, contrary to the claim. -/
theorem C4_counterexample :
    (∃ p ∈ overlapConfig.CHUNK_CONFIGS, p.2.1 ≤ p.2.2) ∧
      validate_config overlapConfig = Except.ok () :=
  ⟨⟨("faq", 300, 300), by decide, by decide⟩, rfl⟩

/-- **C4, amended.**  `Config.validate_config` never inspects the chunking
profiles: its outcome is unchanged under an arbitrary replacement of
`CHUNK_CONFIGS`, so a configuration with `overlap ≥ target_size` passes
validation whenever the API-key, file-size and port checks pass. -/
theorem C4_amended (cfg : PyConfig) (ccfgs : List (String × Nat × Nat)) :
    validate_config { cfg with CHUNK_CONFIGS := ccfgs } = validate_config cfg := rfl

/-- **C9.**  In `SearchEngine.search`, the `category_filter` argument is passed
only to the semantic branch: in `"keyword"` and `"hybrid"` mode the whole
response is identical for any two filter values. -/
theorem C9_category_filter_ignored (e : SearchEngine) (query : String)
    (search_type : String) (top_k : Option Nat) (cf1 cf2 : Option String)
    (h : search_type = "keyword" ∨ search_type = "hybrid") :
    e.search query search_type top_k cf1 = e.search query search_type top_k cf2 := by
  rcases h with h | h <;> subst h <;> rfl

/-- **C9, witness.**  Concrete instance: keyword mode with filter `"pricing"`
versus no filter returns the same response on the demo engine. -/
theorem C9_witness :
    demoEngine.search "tarif" "keyword" (some 1) (some "pricing")
      = demoEngine.search "tarif" "keyword" (some 1) none :=
  C9_category_filter_ignored demoEngine "tarif" "keyword" (some 1) (some "pricing") none
    (Or.inl rfl)

/-- **C8.**  `delete_chunks_by_filename` removes every chunk whose `filename`
matches (none is left behind) and returns `true` iff at least one such chunk
existed (`false` for the not-found case, which does not raise). -/
theorem C8_delete_semantics (filename : String) (store : List StoredChunk) :
    (∀ c ∈ (delete_chunks_by_filename filename store).1, c.filename ≠ filename) ∧
    ((delete_chunks_by_filename filename store).2 = true ↔
      ∃ c ∈ store, c.filename = filename) := by
  unfold delete_chunks_by_filename
  by_cases hids : ((store.filter (fun c => c.filename == filename)).map (·.id)).isEmpty
  · have hfil : store.filter (fun c => c.filename == filename) = [] := by
      have := List.isEmpty_iff.1 hids
      exact List.map_eq_nil_iff.1 this
    have hnone : ∀ c ∈ store, ¬(c.filename = filename) := by
      intro c hc hcf
      have : c ∈ store.filter (fun c => c.filename == filename) :=
        List.mem_filter.2 ⟨hc, by simp [hcf]⟩
      rw [hfil] at this
      cases this
    constructor
    · simp only [if_pos hids]
      exact hnone
    · simp only [if_pos hids]
      constructor
      · intro h; cases h
      · rintro ⟨c, hc, hcf⟩
        exact absurd hcf (hnone c hc)
  · constructor
    · simp only [if_neg hids]
      intro c hc hcf
      rcases List.mem_filter.1 hc with ⟨hcs, hkeep⟩
      simp at hkeep
      exact hkeep c hcs hcf rfl
    · simp only [if_neg hids]
      constructor
      · intro _
        have hne : store.filter (fun c => c.filename == filename) ≠ [] := by
          intro hc
          exact hids (by simp [hc])
        rcases List.exists_mem_of_ne_nil _ hne with ⟨c, hc⟩
        rcases List.mem_filter.1 hc with ⟨hcs, hcf⟩
        exact ⟨c, hcs, by simpa using hcf⟩
      · intro _; trivial

/-- **C8, witness.**  Concrete instance on a three-chunk store: deleting
`"a.txt"` reports `true`, and evaluation confirms the removal. -/
theorem C8_witness :
    ((delete_chunks_by_filename "a.txt" demoStore).2 = true ↔
      ∃ c ∈ demoStore, c.filename = "a.txt") ∧
    delete_chunks_by_filename "a.txt" demoStore
      = ([{ id := "2", filename := "b.txt" }], true) :=
  ⟨(C8_delete_semantics "a.txt" demoStore).2, by decide⟩

/-- **C1 (code bug).**  Uploading the same file twice under the same filename
duplicates its chunks: the success path of `upload_file` removes the uploaded
file from disk, so the `os.path.exists` guard in front of
`delete_chunks_by_filename` is false on re-upload and the prior chunks are
never deleted — the store ends with the chunks of both ingestions, not just
the second one's. -/
theorem C1_reingestion_duplicates :
    (upload_file (upload_file ⟨[], []⟩ "doc.txt" [⟨"u1", "doc.txt"⟩]) "doc.txt"
        [⟨"u2", "doc.txt"⟩]).store = [⟨"u1", "doc.txt"⟩, ⟨"u2", "doc.txt"⟩] ∧
    ((upload_file (upload_file ⟨[], []⟩ "doc.txt" [⟨"u1", "doc.txt"⟩]) "doc.txt"
        [⟨"u2", "doc.txt"⟩]).store.filter (fun c => c.filename == "doc.txt")).length ≠
      [(⟨"u2", "doc.txt"⟩ : StoredChunk)].length :=
  ⟨rfl, by decide⟩

/-! ## Semantic search helpers -/

theorem mem_faiss_fold {e : SearchEngine} {cf : Option String} {pairs : List (ℚ × Int)}
    {acc : List RChunk} {r : RChunk}
    (hacc : ∀ x ∈ acc, e.SIMILARITY_THRESHOLD ≤ x.similarity_score)
    (h : r ∈ pairs.foldl (faissStep e cf) acc) :
    e.SIMILARITY_THRESHOLD ≤ r.similarity_score := by
  induction pairs generalizing acc with
  | nil => exact hacc r h
  | cons p ps ih =>
    refine ih ?_ h
    intro x hx
    unfold faissStep at hx
    split at hx
    · exact hacc x hx
    · split at hx
      · exact hacc x hx
      · split at hx
        · exact hacc x hx
        · split at hx
          · exact hacc x hx
          · rcases List.mem_append.1 hx with hx' | hx'
            · exact hacc x hx'
            · rcases List.mem_singleton.1 hx' with rfl
              exact le_of_not_lt (by assumption)

/-- Every result of `search_semantic` (both the ChromaDB and the FAISS branch)
has a similarity score at or above the threshold. -/
theorem semantic_results_meet_threshold (e : SearchEngine) (query : String)
    (top_k : Option Nat) (cf : Option String) :
    ∀ r ∈ search_semantic e query top_k cf,
      e.SIMILARITY_THRESHOLD ≤ r.similarity_score := by
  intro r hr
  unfold search_semantic at hr
  by_cases hc : e.use_chromadb
  · rw [if_pos hc] at hr
    unfold search_chromadb at hr
    rcases List.mem_filter.1 hr with ⟨_, hthr⟩
    exact of_decide_eq_true hthr
  · rw [if_neg hc] at hr
    unfold search_faiss at hr
    by_cases hidx : !e.faiss_index_some
    · rw [if_pos hidx] at hr; cases hr
    · rw [if_neg hidx] at hr
      exact mem_faiss_fold (fun x hx => absurd hx (List.not_mem_nil x))
        (List.mem_of_mem_take hr)

/-- **C7.**  Threshold exclusion for semantic search: every result returned by
`search_semantic` — for any engine state, query, `top_k` and category filter,
in both the ChromaDB and the FAISS branch — has
`similarity_score ≥ SIMILARITY_THRESHOLD`. -/
theorem C7_semantic_threshold (e : SearchEngine) (query : String)
    (top_k : Option Nat) (cf : Option String) (r : RChunk)
    (hr : r ∈ search_semantic e query top_k cf) :
    e.SIMILARITY_THRESHOLD ≤ r.similarity_score :=
  semantic_results_meet_threshold e query top_k cf r hr


/-- **C7, witness.**  On the demo engine the pricing chunk is returned with
similarity `9/10`, and the theorem instantiates to `7/10 ≤ 9/10`. -/
theorem C7_witness :
    demoSemanticResult ∈ search_semantic demoEngine "tarif" (some 4) none ∧
    demoEngine.SIMILARITY_THRESHOLD ≤ demoSemanticResult.similarity_score := by
  have hmem : demoSemanticResult ∈ search_semantic demoEngine "tarif" (some 4) none := by
    norm_num [search_semantic, search_chromadb, search_similar, demoEngine, pyTruthyStr,
      demoItemPricing, demoItemOther, demoSemanticResult]
  exact ⟨hmem, C7_semantic_threshold demoEngine "tarif" (some 4) none demoSemanticResult hmem⟩

/-! ## Keyword search helpers -/

theorem length_filter_dedup_eq_card (x b : List String) :
    ((x.dedup.filter (fun w => b.contains w)).length) = (x.toFinset ∩ b.toFinset).card := by
  have hnodup : (x.dedup.filter (fun w => b.contains w)).Nodup :=
    (List.nodup_dedup x).filter _
  rw [← List.toFinset_card_of_nodup hnodup]
  congr 1
  ext w
  simp only [List.mem_toFinset, List.mem_filter, List.mem_dedup, Finset.mem_inter,
    List.elem_iff]

/-- The score computed inside `search_by_keywords` coincides with the
specification formula
`2 × |query_tokens ∩ keywords| + 1 × |query_tokens ∩ content_tokens|`. -/
theorem keywordScoreOf_eq_spec (query : String) (chunk : RChunk) :
    keywordScoreOf ((pySplitWs (pyLowerS query)).dedup) chunk = specKeywordScore query chunk := by
  show ((pySplitWs (pyLowerS query)).dedup.filter
      (fun w => (chunk.keywords.map pyLowerS).contains w)).length * 2 +
    ((pySplitWs (pyLowerS query)).dedup.filter
      (fun w => (pySplitWs (pyLowerS chunk.content)).contains w)).length
    = 2 * ((pySplitWs (pyLowerS query)).toFinset ∩
        (chunk.keywords.map pyLowerS).toFinset).card
      + ((pySplitWs (pyLowerS query)).toFinset ∩
        (pySplitWs (pyLowerS chunk.content)).toFinset).card
  rw [length_filter_dedup_eq_card, length_filter_dedup_eq_card]
  ring

/-- `specKeywordScore` only reads the `keywords` and `content` fields, which a
dict copy carrying a new `keyword_score` leaves unchanged. -/
theorem specKeywordScore_copy (query : String) (chunk : RChunk) (s : Option ℚ) :
    specKeywordScore query { chunk with keyword_score := s } = specKeywordScore query chunk :=
  rfl

theorem mem_keyword_fold {qws : List String} {chunks acc : List RChunk} {r : RChunk}
    (h : r ∈ chunks.foldl (keywordStep qws) acc) :
    r ∈ acc ∨ ∃ c ∈ chunks, 0 < keywordScoreOf qws c ∧
      r = { c with keyword_score := some ((keywordScoreOf qws c : Nat) : ℚ) } := by
  induction chunks generalizing acc with
  | nil => exact Or.inl h
  | cons c cs ih =>
    rcases ih h with hacc | ⟨c', hc', hpos, hr⟩
    · unfold keywordStep at hacc
      split at hacc
      · rcases List.mem_append.1 hacc with hx | hx
        · exact Or.inl hx
        · rcases List.mem_singleton.1 hx with rfl
          exact Or.inr ⟨c, List.mem_cons_self _ _, by assumption, rfl⟩
      · exact Or.inl hacc
    · exact Or.inr ⟨c', List.mem_cons_of_mem _ hc', hpos, hr⟩

/-- Every result of `search_by_keywords` carries `keyword_score` equal to the
specification formula evaluated on the result itself, and that score is
positive (zero-score candidates are dropped). -/
theorem keyword_results_scored (e : SearchEngine) (query : String) (top_k : Option Nat) :
    ∀ r ∈ search_by_keywords e query top_k,
      r.keyword_score = some ((specKeywordScore query r : Nat) : ℚ) ∧
        0 < specKeywordScore query r := by
  intro r hr
  unfold search_by_keywords at hr
  have hr' := mem_sortDesc.1 (List.mem_of_mem_take hr)
  rcases mem_keyword_fold hr' with hacc | ⟨c, _, hpos, hrc⟩
  · cases hacc
  · subst hrc
    rw [specKeywordScore_copy]
    rw [← keywordScoreOf_eq_spec]
    exact ⟨rfl, by rw [keywordScoreOf_eq_spec] at hpos ⊢; exact hpos⟩

/-- The results of `search_by_keywords` are sorted by `keyword_score`
descending. -/
theorem keyword_results_sorted (e : SearchEngine) (query : String) (top_k : Option Nat) :
    (search_by_keywords e query top_k).Pairwise
      (fun a b => b.keyword_score.getD 0 ≤ a.keyword_score.getD 0) := by
  unfold search_by_keywords
  exact (pairwise_sortDesc _ _).sublist (List.take_sublist _ _)

/-- **C6.**  Keyword search scoring: every returned result's `keyword_score`
equals `2 × |distinct lowercased query tokens ∩ chunk keywords| + 1 ×
|distinct query tokens ∩ chunk content tokens|`, every candidate scoring 0 is
excluded entirely (all returned scores are positive), and the returned list is
sorted by score descending. -/
theorem C6_keyword_scoring (e : SearchEngine) (query : String) (top_k : Option Nat) :
    (∀ r ∈ search_by_keywords e query top_k,
      r.keyword_score = some ((specKeywordScore query r : Nat) : ℚ) ∧
        0 < specKeywordScore query r) ∧
    (search_by_keywords e query top_k).Pairwise
      (fun a b => b.keyword_score.getD 0 ≤ a.keyword_score.getD 0) :=
  ⟨keyword_results_scored e query top_k, keyword_results_sorted e query top_k⟩

set_option maxRecDepth 4000 in
unseal Rat.sub Rat.mul Rat.inv Rat.add Rat.ofScientific in
/-- **C6, witness.**  On the demo engine, the query `"tarif"` returns the
pricing chunk with score `3 = 2 × 1 + 1` (one keyword match, one content
match), instantiating the scoring theorem. -/
theorem C6_witness :
    demoKeywordResult ∈ search_by_keywords demoEngine "tarif" (some 4) ∧
    demoKeywordResult.keyword_score
      = some ((specKeywordScore "tarif" demoKeywordResult : Nat) : ℚ) ∧
    0 < specKeywordScore "tarif" demoKeywordResult := by
  have hmem : demoKeywordResult ∈ search_by_keywords demoEngine "tarif" (some 4) := by
    decide
  exact ⟨hmem, (C6_keyword_scoring demoEngine "tarif" (some 4)).1 demoKeywordResult hmem⟩

/-! ## Hybrid merge helpers -/

theorem semfold_values {S : List RChunk} {d : List (String × Combined)}
    (P : Combined → Prop) (hd : ∀ p ∈ d, P p.2)
    (hS : ∀ r ∈ S, P ⟨r, r.similarity_score, 0⟩) :
    ∀ p ∈ S.foldl semStep d, P p.2 := by
  induction S generalizing d with
  | nil => exact hd
  | cons r rs ih =>
    refine ih ?_ (fun r' hr' => hS r' (List.mem_cons_of_mem _ hr'))
    intro p hp
    rcases mem_dictSet hp with hp' | hp'
    · rw [hp']
      exact hS r (List.mem_cons_self _ _)
    · exact hd p hp'

theorem kwfold_values {K : List RChunk} {d : List (String × Combined)}
    (P : Combined → Prop) (hd : ∀ p ∈ d, P p.2)
    (hmod : ∀ cd, ∀ r ∈ K, P cd → P { cd with keyword_score := r.keyword_score.getD 0 })
    (hnew : ∀ r ∈ K, P ⟨r, 0, r.keyword_score.getD 0⟩) :
    ∀ p ∈ K.foldl kwStep d, P p.2 := by
  induction K generalizing d with
  | nil => exact hd
  | cons r rs ih =>
    refine ih ?_
      (fun cd r' hr' => hmod cd r' (List.mem_cons_of_mem _ hr'))
      (fun r' hr' => hnew r' (List.mem_cons_of_mem _ hr'))
    intro p hp
    unfold kwStep at hp
    split at hp
    · rcases mem_dictModify hp with ⟨v₀, hv₀, hp'⟩ | hp'
      · rw [hp']
        exact hmod v₀ r (List.mem_cons_self _ _) (hd _ hv₀)
      · exact hd p hp'
    · rcases mem_dictSet hp with hp' | hp'
      · rw [hp']
        exact hnew r (List.mem_cons_self _ _)
      · exact hd p hp'

theorem mem_hybrid_finalize {w : ℚ} {d : List (String × Combined)} {r : RChunk}
    (h : r ∈ hybrid_finalize w d) :
    ∃ cd ∈ d.map (·.2),
      r = { cd.chunk with
        final_score := some (w *
            (if 0 < pyMaxD ((d.map (·.2)).map (·.semantic_score)) 1 then
              cd.semantic_score / pyMaxD ((d.map (·.2)).map (·.semantic_score)) 1 else 0) +
          (1 - w) *
            (if 0 < pyMaxD ((d.map (·.2)).map (·.keyword_score)) 1 then
              cd.keyword_score / pyMaxD ((d.map (·.2)).map (·.keyword_score)) 1 else 0)) } := by
  unfold hybrid_finalize at h
  rcases List.mem_map.1 h with ⟨cd, hcd, hr⟩
  exact ⟨cd, hcd, hr.symm⟩

/-- **C2, amended.**  No chunk below the similarity threshold ever enters the
hybrid candidate set through the *semantic* channel; but the keyword channel is
not similarity-filtered, so every chunk returned by `hybrid_search` either
meets the threshold or entered through the keyword channel with a positive
keyword score. -/
theorem C2_amended (e : SearchEngine) (query : String) (top_k : Option Nat)
    (w : ℚ) (r : RChunk) (hr : r ∈ hybrid_search e query top_k w) :
    e.SIMILARITY_THRESHOLD ≤ r.similarity_score ∨ 0 < r.keyword_score.getD 0 := by
  unfold hybrid_search at hr
  have hr' := mem_sortDesc.1 (List.mem_of_mem_take hr)
  rcases mem_hybrid_finalize hr' with ⟨cd, hcd, hreq⟩
  have hgood : ∀ p ∈ hybrid_combine
      (search_semantic e query (some ((top_k.getD e.TOP_K_RESULTS) + 3)) none)
      (search_by_keywords e query (some ((top_k.getD e.TOP_K_RESULTS) + 3))),
      e.SIMILARITY_THRESHOLD ≤ p.2.chunk.similarity_score ∨
        0 < p.2.chunk.keyword_score.getD 0 := by
    unfold hybrid_combine
    refine kwfold_values
      (fun cd => e.SIMILARITY_THRESHOLD ≤ cd.chunk.similarity_score ∨
        0 < cd.chunk.keyword_score.getD 0)
      (semfold_values
        (fun cd => e.SIMILARITY_THRESHOLD ≤ cd.chunk.similarity_score ∨
          0 < cd.chunk.keyword_score.getD 0)
        (fun p hp => absurd hp (List.not_mem_nil p)) ?_) ?_ ?_
    · intro s hs
      exact Or.inl (semantic_results_meet_threshold e query _ none s hs)
    · intro cd' r' _ hP
      exact hP
    · intro r' hr'
      rcases keyword_results_scored e query _ r' hr' with ⟨hks, hpos⟩
      right
      rw [hks]
      simpa using hpos
  rcases List.mem_map.1 hcd with ⟨p, hp, hpcd⟩
  have := hgood p hp
  rw [hpcd] at this
  rw [hreq]
  exact this

set_option maxRecDepth 4000 in
unseal Rat.sub Rat.mul Rat.inv Rat.add Rat.ofScientific in
/-- **C2, counterexample.**  The claim as stated is false: on an engine whose
only chunk has similarity `1/10 < 7/10` but matches the query keyword, hybrid
search returns that chunk — a sub-threshold chunk reaches (and leaves) the
ranker through the keyword channel. -/
theorem C2_counterexample :
    ∃ r ∈ hybrid_search subThresholdEngine "tarif" (some 1) (7 / 10),
      r.similarity_score < subThresholdEngine.SIMILARITY_THRESHOLD := by
  decide

/-! ## Hybrid merge: pairwise-level lemmas for the top-result theorem -/

theorem hybrid_finalize_eq (w : ℚ) (d : List (String × Combined)) :
    hybrid_finalize w d = (d.map (·.2)).map
      (fun cd => { cd.chunk with final_score := some (finalScoreOf w d cd) }) :=
  rfl

theorem semfold_pairs {S : List RChunk} {d : List (String × Combined)}
    (P : String × Combined → Prop) (hd : ∀ p ∈ d, P p)
    (hS : ∀ r ∈ S, P (r.id, ⟨r, r.similarity_score, 0⟩)) :
    ∀ p ∈ S.foldl semStep d, P p := by
  induction S generalizing d with
  | nil => exact hd
  | cons r rs ih =>
    refine ih ?_ (fun r' hr' => hS r' (List.mem_cons_of_mem _ hr'))
    intro p hp
    rcases mem_dictSet hp with hp' | hp'
    · rw [hp']
      exact hS r (List.mem_cons_self _ _)
    · exact hd p hp'

theorem kwfold_pairs {K : List RChunk} {d : List (String × Combined)}
    (P : String × Combined → Prop) (hd : ∀ p ∈ d, P p)
    (hmod : ∀ r ∈ K, ∀ v₀ : Combined, P (r.id, v₀) →
      P (r.id, { v₀ with keyword_score := r.keyword_score.getD 0 }))
    (hnew : ∀ r ∈ K, P (r.id, ⟨r, 0, r.keyword_score.getD 0⟩)) :
    ∀ p ∈ K.foldl kwStep d, P p := by
  induction K generalizing d with
  | nil => exact hd
  | cons r rs ih =>
    refine ih ?_
      (fun r' hr' => hmod r' (List.mem_cons_of_mem _ hr'))
      (fun r' hr' => hnew r' (List.mem_cons_of_mem _ hr'))
    intro p hp
    unfold kwStep at hp
    split at hp
    · rcases mem_dictModify hp with ⟨v₀, hv₀, hp'⟩ | hp'
      · rw [hp']
        exact hmod r (List.mem_cons_self _ _) v₀ (hd _ hv₀)
      · exact hd p hp'
    · rcases mem_dictSet hp with hp' | hp'
      · rw [hp']
        exact hnew r (List.mem_cons_self _ _)
      · exact hd p hp'

theorem semfold_nodup {S : List RChunk} {d : List (String × Combined)}
    (hd : NodupKeys d) : NodupKeys (S.foldl semStep d) := by
  induction S generalizing d with
  | nil => exact hd
  | cons r rs ih => exact ih (nodupKeys_dictSet hd)

theorem kwfold_nodup {K : List RChunk} {d : List (String × Combined)}
    (hd : NodupKeys d) : NodupKeys (K.foldl kwStep d) := by
  induction K generalizing d with
  | nil => exact hd
  | cons r rs ih =>
    refine ih ?_
    unfold kwStep
    split
    · exact nodupKeys_dictModify hd
    · exact nodupKeys_dictSet hd

theorem semfold_get {S : List RChunk} {d : List (String × Combined)} {s : RChunk}
    {cid : String} (hsid : s.id = cid)
    (huniq : ∀ r ∈ S, r.id = cid → r = s)
    (h : dictGet cid d = some ⟨s, s.similarity_score, 0⟩ ∨ s ∈ S) :
    dictGet cid (S.foldl semStep d) = some ⟨s, s.similarity_score, 0⟩ := by
  induction S generalizing d with
  | nil =>
    rcases h with h | h
    · exact h
    · cases h
  | cons r rs ih =>
    have huniq' : ∀ r' ∈ rs, r'.id = cid → r' = s := fun r' hr' =>
      huniq r' (List.mem_cons_of_mem _ hr')
    by_cases hrid : r.id = cid
    · have hrs : r = s := huniq r (List.mem_cons_self _ _) hrid
      refine ih huniq' (Or.inl ?_)
      show dictGet cid (dictSet r.id ⟨r, r.similarity_score, 0⟩ d) = _
      rw [hrid, hrs]
      exact dictGet_dictSet_self cid _ d
    · refine ih huniq' ?_
      rcases h with h | h
      · left
        show dictGet cid (dictSet r.id ⟨r, r.similarity_score, 0⟩ d) = _
        rw [dictGet_dictSet_ne hrid _ d]
        exact h
      · rcases List.mem_cons.1 h with h' | h'
        · exact absurd (h' ▸ hsid) hrid
        · exact Or.inr h'

theorem kwfold_get {K : List RChunk} {d : List (String × Combined)} {s k : RChunk}
    {cid : String} (hkid : k.id = cid)
    (huniq : ∀ r ∈ K, r.id = cid → r = k)
    (h : (dictGet cid d = some ⟨s, s.similarity_score, 0⟩ ∧ k ∈ K) ∨
      dictGet cid d = some ⟨s, s.similarity_score, k.keyword_score.getD 0⟩) :
    dictGet cid (K.foldl kwStep d)
      = some ⟨s, s.similarity_score, k.keyword_score.getD 0⟩ := by
  induction K generalizing d with
  | nil =>
    rcases h with ⟨_, hk⟩ | h
    · cases hk
    · exact h
  | cons r rs ih =>
    have huniq' : ∀ r' ∈ rs, r'.id = cid → r' = k := fun r' hr' =>
      huniq r' (List.mem_cons_of_mem _ hr')
    by_cases hrid : r.id = cid
    · have hrk : r = k := huniq r (List.mem_cons_self _ _) hrid
      have hget : dictGet cid d = some ⟨s, s.similarity_score, 0⟩ ∨
          dictGet cid d = some ⟨s, s.similarity_score, k.keyword_score.getD 0⟩ := by
        rcases h with ⟨h', _⟩ | h'
        · exact Or.inl h'
        · exact Or.inr h'
      rcases hget with hget | hget
      all_goals {
        refine ih huniq' (Or.inr ?_)
        show dictGet cid (kwStep d r) = _
        unfold kwStep
        rw [if_pos (by rw [hrid]; exact dictContains_true_of_get hget)]
        rw [hrid, hrk]
        rw [dictGet_dictModify_self, hget]
        rfl
      }
    · refine ih huniq' ?_
      have hpreserve : dictGet cid (kwStep d r) = dictGet cid d := by
        unfold kwStep
        split
        · exact dictGet_dictModify_ne hrid _ d
        · exact dictGet_dictSet_ne hrid _ d
      rcases h with ⟨h', hk⟩ | h'
      · left
        refine ⟨by rw [hpreserve]; exact h', ?_⟩
        rcases List.mem_cons.1 hk with h'' | h''
        · exact absurd (h'' ▸ hkid) hrid
        · exact h''
      · right
        rw [hpreserve]
        exact h'

/-- Arithmetic core of the hybrid-monotonicity argument: with the keyword
maximum equal to the top keyword score (positive) and the semantic maximum
either the top similarity (when positive) or nonpositive, any entry dominated
strictly in the keyword channel and weakly in the semantic channel gets a
strictly smaller weighted final score, for any weight in `(0, 1)`. -/
theorem final_lt_top {w Ms Mk ssim kD csem ckw : ℚ}
    (hw0 : 0 < w) (hw1 : w < 1) (hkD : 0 < kD) (hMk : Mk = kD)
    (hcsem_le : csem ≤ Ms) (hckw : ckw < kD)
    (hMs_cases : (Ms = ssim ∧ 0 < ssim) ∨ Ms ≤ 0) :
    w * (if 0 < Ms then csem / Ms else 0) + (1 - w) * (if 0 < Mk then ckw / Mk else 0)
      < w * (if 0 < Ms then ssim / Ms else 0) +
        (1 - w) * (if 0 < Mk then kD / Mk else 0) := by
  have h1w : 0 < 1 - w := by linarith
  rw [hMk]
  simp only [if_pos hkD]
  rw [div_self (ne_of_gt hkD)]
  have hnk : ckw / kD < 1 := (div_lt_one hkD).2 hckw
  have hnk2 : (1 - w) * (ckw / kD) < (1 - w) * 1 := mul_lt_mul_of_pos_left hnk h1w
  rcases hMs_cases with ⟨hMs, hs0⟩ | hMs
  · subst hMs
    simp only [if_pos hs0]
    rw [div_self (ne_of_gt hs0)]
    have hns : csem / Ms ≤ 1 := (div_le_one hs0).2 hcsem_le
    have hns2 : w * (csem / Ms) ≤ w * 1 := mul_le_mul_of_nonneg_left hns (le_of_lt hw0)
    linarith
  · simp only [if_neg (not_lt.2 hMs)]
    linarith

/-- **C5.**  Hybrid monotonicity: if a chunk id is the unique strictly
highest-scoring result in both the semantic and the keyword result set that
`hybrid_search` uses (the `top_k + 3` searches), then for every
`semantic_weight` strictly between 0 and 1 and every `top_k ≥ 1` that chunk has
the strictly highest final score and is returned first. -/
theorem C5_hybrid_top (e : SearchEngine) (query : String) (tk : Nat) (w : ℚ)
    (cid : String) (s k : RChunk)
    (htk : 1 ≤ tk) (hw0 : 0 < w) (hw1 : w < 1)
    (hsS : s ∈ search_semantic e query (some (tk + 3)) none)
    (hsid : s.id = cid)
    (hsmax : ∀ r ∈ search_semantic e query (some (tk + 3)) none,
      r.id ≠ cid → r.similarity_score < s.similarity_score)
    (hsuniq : ∀ r ∈ search_semantic e query (some (tk + 3)) none, r.id = cid → r = s)
    (hkK : k ∈ search_by_keywords e query (some (tk + 3)))
    (hkid : k.id = cid)
    (hkmax : ∀ r ∈ search_by_keywords e query (some (tk + 3)),
      r.id ≠ cid → r.keyword_score.getD 0 < k.keyword_score.getD 0)
    (hkuniq : ∀ r ∈ search_by_keywords e query (some (tk + 3)), r.id = cid → r = k) :
    ∃ top rest, hybrid_search e query (some tk) w = top :: rest ∧ top.id = cid ∧
      ∀ y ∈ rest, y.final_score.getD 0 < top.final_score.getD 0 := by
  obtain ⟨n, hn⟩ : ∃ n : Nat, tk = n + 1 := ⟨tk - 1, by omega⟩
  have hkDpos : 0 < k.keyword_score.getD 0 := by
    rcases keyword_results_scored e query (some (tk + 3)) k hkK with ⟨h1, h2⟩
    rw [h1]
    simpa using h2
  have hKnonneg : ∀ r ∈ search_by_keywords e query (some (tk + 3)),
      0 ≤ r.keyword_score.getD 0 := by
    intro r hr
    rcases keyword_results_scored e query (some (tk + 3)) r hr with ⟨h1, _⟩
    rw [h1]
    simp only [Option.getD_some]
    exact Nat.cast_nonneg _
  -- the combined dict and its distinguished entry
  have hnodup : NodupKeys (hybrid_combine (search_semantic e query (some (tk + 3)) none)
      (search_by_keywords e query (some (tk + 3)))) := by
    unfold hybrid_combine
    exact kwfold_nodup (semfold_nodup (by simp [NodupKeys]))
  have hpairinv : ∀ p ∈ hybrid_combine (search_semantic e query (some (tk + 3)) none)
      (search_by_keywords e query (some (tk + 3))), p.2.chunk.id = p.1 := by
    unfold hybrid_combine
    refine kwfold_pairs (fun p => p.2.chunk.id = p.1)
      (semfold_pairs _ (fun p hp => absurd hp (List.not_mem_nil p)) ?_) ?_ ?_
    · intro r _; rfl
    · intro r _ v₀ h; exact h
    · intro r _; rfl
  have hget : dictGet cid (hybrid_combine (search_semantic e query (some (tk + 3)) none)
        (search_by_keywords e query (some (tk + 3))))
      = some ⟨s, s.similarity_score, k.keyword_score.getD 0⟩ := by
    unfold hybrid_combine
    exact kwfold_get hkid hkuniq (Or.inl ⟨semfold_get hsid hsuniq (Or.inr hsS), hkK⟩)
  have hmem_es : (cid, (⟨s, s.similarity_score, k.keyword_score.getD 0⟩ : Combined)) ∈
      hybrid_combine (search_semantic e query (some (tk + 3)) none)
        (search_by_keywords e query (some (tk + 3))) := dictGet_mem hget
  -- bounds for the other entries
  have hbound : ∀ p ∈ hybrid_combine (search_semantic e query (some (tk + 3)) none)
      (search_by_keywords e query (some (tk + 3))), p.1 ≠ cid →
      (p.2.semantic_score < s.similarity_score ∨ p.2.semantic_score = 0) ∧
        0 ≤ p.2.keyword_score ∧ p.2.keyword_score < k.keyword_score.getD 0 := by
    unfold hybrid_combine
    refine kwfold_pairs
      (fun p => p.1 ≠ cid →
        (p.2.semantic_score < s.similarity_score ∨ p.2.semantic_score = 0) ∧
          0 ≤ p.2.keyword_score ∧ p.2.keyword_score < k.keyword_score.getD 0)
      (semfold_pairs _ (fun p hp => absurd hp (List.not_mem_nil p)) ?_) ?_ ?_
    · intro r hr hne
      exact ⟨Or.inl (hsmax r hr hne), le_refl 0, hkDpos⟩
    · intro r hr v₀ hv₀ hne
      rcases hv₀ hne with ⟨hsem, _, _⟩
      exact ⟨hsem, hKnonneg r hr, hkmax r hr hne⟩
    · intro r hr hne
      exact ⟨Or.inr rfl, hKnonneg r hr, hkmax r hr hne⟩
  -- the value list
  have hes_vals : (⟨s, s.similarity_score, k.keyword_score.getD 0⟩ : Combined) ∈
      ((hybrid_combine (search_semantic e query (some (tk + 3)) none)
        (search_by_keywords e query (some (tk + 3)))).map (·.2)) :=
    List.mem_map.2 ⟨_, hmem_es, rfl⟩
  have hvals_char : ∀ cd ∈ ((hybrid_combine (search_semantic e query (some (tk + 3)) none)
      (search_by_keywords e query (some (tk + 3)))).map (·.2)),
      cd = (⟨s, s.similarity_score, k.keyword_score.getD 0⟩ : Combined) ∨
      ((cd.semantic_score < s.similarity_score ∨ cd.semantic_score = 0) ∧
        0 ≤ cd.keyword_score ∧ cd.keyword_score < k.keyword_score.getD 0) := by
    intro cd hcd
    rcases List.mem_map.1 hcd with ⟨p, hp, hpcd⟩
    by_cases hpc : p.1 = cid
    · left
      obtain ⟨p1, p2⟩ := p
      simp only at hpc hpcd
      subst hpc
      subst hpcd
      have h2 := dictGet_of_mem_nodup hnodup hp
      rw [hget] at h2
      exact (Option.some.inj h2).symm
    · right
      rw [← hpcd]
      exact hbound p hp hpc
  -- the two channel maxima
  have hvals_ne : ((hybrid_combine (search_semantic e query (some (tk + 3)) none)
      (search_by_keywords e query (some (tk + 3)))).map (·.2)) ≠ [] :=
    List.ne_nil_of_mem hes_vals
  have hkwlist_ne : (((hybrid_combine (search_semantic e query (some (tk + 3)) none)
      (search_by_keywords e query (some (tk + 3)))).map (·.2)).map (·.keyword_score)) ≠ [] :=
    fun hc => hvals_ne (List.map_eq_nil_iff.1 hc)
  have hsemlist_ne : (((hybrid_combine (search_semantic e query (some (tk + 3)) none)
      (search_by_keywords e query (some (tk + 3)))).map (·.2)).map (·.semantic_score)) ≠ [] :=
    fun hc => hvals_ne (List.map_eq_nil_iff.1 hc)
  have hMk_eq : pyMaxD (((hybrid_combine (search_semantic e query (some (tk + 3)) none)
        (search_by_keywords e query (some (tk + 3)))).map (·.2)).map (·.keyword_score)) 1
      = k.keyword_score.getD 0 := by
    refine le_antisymm ?_ (le_pyMaxD (List.mem_map.2 ⟨_, hes_vals, rfl⟩) 1)
    have hmem := pyMaxD_mem hkwlist_ne (1 : ℚ)
    rcases List.mem_map.1 hmem with ⟨cd, hcd, hkw⟩
    rw [← hkw]
    rcases hvals_char cd hcd with rfl | ⟨_, _, hlt⟩
    · exact le_refl _
    · exact le_of_lt hlt
  -- the semantic maximum is either the top similarity (if positive) or nonpositive
  have hMs_cases : (pyMaxD (((hybrid_combine (search_semantic e query (some (tk + 3)) none)
        (search_by_keywords e query (some (tk + 3)))).map (·.2)).map (·.semantic_score)) 1
          = s.similarity_score ∧ 0 < s.similarity_score) ∨
      pyMaxD (((hybrid_combine (search_semantic e query (some (tk + 3)) none)
        (search_by_keywords e query (some (tk + 3)))).map (·.2)).map (·.semantic_score)) 1
          ≤ 0 := by
    rcases le_or_lt s.similarity_score 0 with hscase | hscase
    · right
      have hmem := pyMaxD_mem hsemlist_ne (1 : ℚ)
      rcases List.mem_map.1 hmem with ⟨cd, hcd, hsem⟩
      rw [← hsem]
      rcases hvals_char cd hcd with rfl | ⟨hsem' | hsem', _, _⟩
      · exact hscase
      · exact le_of_lt (lt_of_lt_of_le hsem' hscase)
      · exact le_of_eq hsem'
    · left
      refine ⟨le_antisymm ?_ (le_pyMaxD (List.mem_map.2 ⟨_, hes_vals, rfl⟩) 1), hscase⟩
      have hmem := pyMaxD_mem hsemlist_ne (1 : ℚ)
      rcases List.mem_map.1 hmem with ⟨cd, hcd, hsem⟩
      rw [← hsem]
      rcases hvals_char cd hcd with rfl | ⟨hsem' | hsem', _, _⟩
      · exact le_refl _
      · exact le_of_lt hsem'
      · rw [hsem']; exact le_of_lt hscase
  -- every entry's final score other than the top one is strictly below it
  have hFlt : ∀ cd ∈ ((hybrid_combine (search_semantic e query (some (tk + 3)) none)
      (search_by_keywords e query (some (tk + 3)))).map (·.2)),
      cd ≠ (⟨s, s.similarity_score, k.keyword_score.getD 0⟩ : Combined) →
      finalScoreOf w (hybrid_combine (search_semantic e query (some (tk + 3)) none)
        (search_by_keywords e query (some (tk + 3)))) cd
      < finalScoreOf w (hybrid_combine (search_semantic e query (some (tk + 3)) none)
        (search_by_keywords e query (some (tk + 3))))
          ⟨s, s.similarity_score, k.keyword_score.getD 0⟩ := by
    intro cd hcd hne
    rcases hvals_char cd hcd with rfl | ⟨_, hkw0, hkwlt⟩
    · exact absurd rfl hne
    · have hcsem_le : cd.semantic_score ≤
          pyMaxD (((hybrid_combine (search_semantic e query (some (tk + 3)) none)
            (search_by_keywords e query (some (tk + 3)))).map (·.2)).map
              (·.semantic_score)) 1 :=
        le_pyMaxD (List.mem_map.2 ⟨cd, hcd, rfl⟩) 1
      exact final_lt_top hw0 hw1 hkDpos hMk_eq hcsem_le hkwlt hMs_cases
  -- the finalized list has the image of the top entry as unique strict maximum
  have hm_mem : ({ s with final_score := some (finalScoreOf w
        (hybrid_combine (search_semantic e query (some (tk + 3)) none)
          (search_by_keywords e query (some (tk + 3))))
        ⟨s, s.similarity_score, k.keyword_score.getD 0⟩) } : RChunk) ∈
      hybrid_finalize w (hybrid_combine (search_semantic e query (some (tk + 3)) none)
        (search_by_keywords e query (some (tk + 3)))) := by
    rw [hybrid_finalize_eq]
    exact List.mem_map.2 ⟨_, hes_vals, rfl⟩
  have hstrict : ∀ y ∈ hybrid_finalize w
      (hybrid_combine (search_semantic e query (some (tk + 3)) none)
        (search_by_keywords e query (some (tk + 3)))),
      y ≠ ({ s with final_score := some (finalScoreOf w
        (hybrid_combine (search_semantic e query (some (tk + 3)) none)
          (search_by_keywords e query (some (tk + 3))))
        ⟨s, s.similarity_score, k.keyword_score.getD 0⟩) } : RChunk) →
      y.final_score.getD 0 < ({ s with final_score := some (finalScoreOf w
        (hybrid_combine (search_semantic e query (some (tk + 3)) none)
          (search_by_keywords e query (some (tk + 3))))
        ⟨s, s.similarity_score, k.keyword_score.getD 0⟩) } : RChunk).final_score.getD 0 := by
    intro y hy hne
    rw [hybrid_finalize_eq] at hy
    rcases List.mem_map.1 hy with ⟨cd, hcd, hcdy⟩
    have hcdne : cd ≠ (⟨s, s.similarity_score, k.keyword_score.getD 0⟩ : Combined) := by
      intro hc
      exact hne (by rw [← hcdy, hc])
    rw [← hcdy]
    exact hFlt cd hcd hcdne
  have hcount_vals : (((hybrid_combine (search_semantic e query (some (tk + 3)) none)
      (search_by_keywords e query (some (tk + 3)))).map (·.2)).count
        (⟨s, s.similarity_score, k.keyword_score.getD 0⟩ : Combined)) = 1 := by
    refine count_snd_eq_one hnodup hmem_es ?_
    intro p hp hpe
    have h1 := hpairinv p hp
    rw [hpe] at h1
    rw [← h1]
    exact hsid
  have hinj : ∀ cd ∈ ((hybrid_combine (search_semantic e query (some (tk + 3)) none)
      (search_by_keywords e query (some (tk + 3)))).map (·.2)),
      ({ cd.chunk with final_score := some (finalScoreOf w
        (hybrid_combine (search_semantic e query (some (tk + 3)) none)
          (search_by_keywords e query (some (tk + 3)))) cd) } : RChunk) =
      ({ s with final_score := some (finalScoreOf w
        (hybrid_combine (search_semantic e query (some (tk + 3)) none)
          (search_by_keywords e query (some (tk + 3))))
          ⟨s, s.similarity_score, k.keyword_score.getD 0⟩) } : RChunk) →
      cd = ⟨s, s.similarity_score, k.keyword_score.getD 0⟩ := by
    intro cd hcd he
    by_cases hne : cd = (⟨s, s.similarity_score, k.keyword_score.getD 0⟩ : Combined)
    · exact hne
    · have hfs := congrArg (fun r => RChunk.final_score r) he
      simp only at hfs
      have heq := Option.some.inj hfs
      exact absurd (heq ▸ hFlt cd hcd hne) (lt_irrefl _)
  -- sort and truncate
  have hcount_L := count_map_eq_count
      (fun cd => ({ cd.chunk with final_score := some (finalScoreOf w
        (hybrid_combine (search_semantic e query (some (tk + 3)) none)
          (search_by_keywords e query (some (tk + 3)))) cd) } : RChunk))
      ((hybrid_combine (search_semantic e query (some (tk + 3)) none)
        (search_by_keywords e query (some (tk + 3)))).map (·.2))
      (⟨s, s.similarity_score, k.keyword_score.getD 0⟩ : Combined) hinj
  rw [hcount_vals] at hcount_L
  obtain ⟨t, ht⟩ := sortDesc_cons_of_strictmax hm_mem hstrict
  have hperm := sortDesc_perm (fun r => r.final_score.getD 0)
    (hybrid_finalize w (hybrid_combine (search_semantic e query (some (tk + 3)) none)
      (search_by_keywords e query (some (tk + 3)))))
  rw [ht] at hperm
  have hLcount : (hybrid_finalize w
      (hybrid_combine (search_semantic e query (some (tk + 3)) none)
        (search_by_keywords e query (some (tk + 3))))).count
      ({ s with final_score := some (finalScoreOf w
        (hybrid_combine (search_semantic e query (some (tk + 3)) none)
          (search_by_keywords e query (some (tk + 3))))
        ⟨s, s.similarity_score, k.keyword_score.getD 0⟩) } : RChunk) = 1 := by
    rw [hybrid_finalize_eq]
    exact hcount_L
  have htzero : t.count ({ s with final_score := some (finalScoreOf w
      (hybrid_combine (search_semantic e query (some (tk + 3)) none)
        (search_by_keywords e query (some (tk + 3))))
      ⟨s, s.similarity_score, k.keyword_score.getD 0⟩) } : RChunk) = 0 := by
    have hc := hperm.count_eq ({ s with final_score := some (finalScoreOf w
      (hybrid_combine (search_semantic e query (some (tk + 3)) none)
        (search_by_keywords e query (some (tk + 3))))
      ⟨s, s.similarity_score, k.keyword_score.getD 0⟩) } : RChunk)
    rw [hLcount, List.count_cons_self] at hc
    omega
  refine ⟨({ s with final_score := some (finalScoreOf w
      (hybrid_combine (search_semantic e query (some (tk + 3)) none)
        (search_by_keywords e query (some (tk + 3))))
      ⟨s, s.similarity_score, k.keyword_score.getD 0⟩) } : RChunk), t.take n, ?_, hsid, ?_⟩
  · show (sortDesc (fun r => r.final_score.getD 0)
      (hybrid_finalize w (hybrid_combine (search_semantic e query (some (tk + 3)) none)
        (search_by_keywords e query (some (tk + 3)))))).take tk = _
    rw [ht, hn]
    rfl
  · intro y hy
    have hyt : y ∈ t := List.mem_of_mem_take hy
    have hymem : y ∈ hybrid_finalize w
        (hybrid_combine (search_semantic e query (some (tk + 3)) none)
          (search_by_keywords e query (some (tk + 3)))) :=
      hperm.mem_iff.1 (List.mem_cons_of_mem _ hyt)
    have hyne : y ≠ ({ s with final_score := some (finalScoreOf w
        (hybrid_combine (search_semantic e query (some (tk + 3)) none)
          (search_by_keywords e query (some (tk + 3))))
        ⟨s, s.similarity_score, k.keyword_score.getD 0⟩) } : RChunk) := by
      intro hc
      subst hc
      exact (List.count_eq_zero.1 htzero) hyt
    exact hstrict y hymem hyne

set_option maxRecDepth 4000 in
unseal Rat.sub Rat.mul Rat.inv Rat.add Rat.ofScientific in
/-- **C2, amended witness.**  On `subThresholdEngine`, the returned chunk is
below the threshold but has keyword score 3 > 0, instantiating the amended
theorem's disjunction. -/
theorem C2_amended_witness :
    subThresholdHybridResult ∈ hybrid_search subThresholdEngine "tarif" (some 1) (7 / 10) ∧
    (subThresholdEngine.SIMILARITY_THRESHOLD ≤ subThresholdHybridResult.similarity_score ∨
      0 < subThresholdHybridResult.keyword_score.getD 0) := by
  have hmem : subThresholdHybridResult ∈
      hybrid_search subThresholdEngine "tarif" (some 1) (7 / 10) := by decide
  exact ⟨hmem, C2_amended subThresholdEngine "tarif" (some 1) (7 / 10)
    subThresholdHybridResult hmem⟩

set_option maxRecDepth 4000 in
unseal Rat.sub Rat.mul Rat.inv Rat.add Rat.ofScientific in
/-- **C5, witness.**  On the demo engine, chunk `"c1"` is the unique top result
of both channels for the query `"tarif"`, and the theorem instantiated at
`top_k = 1`, `semantic_weight = 1/2` shows it is returned first with the
strictly highest final score. -/
theorem C5_witness :
    ∃ top rest, hybrid_search demoEngine "tarif" (some 1) (1 / 2) = top :: rest ∧
      top.id = "c1" ∧ ∀ y ∈ rest, y.final_score.getD 0 < top.final_score.getD 0 :=
  C5_hybrid_top demoEngine "tarif" 1 (1 / 2) "c1" demoSemanticResult demoKeywordResult
    (by decide) (by decide) (by decide) (by decide) (by decide) (by decide) (by decide)
    (by decide) (by decide) (by decide) (by decide)

/-! ## String-stripping lemmas for the chunker -/

theorem dropWhile_head_not (p : Char → Bool) :
    ∀ (l : List Char) (c : Char) (rest : List Char),
      l.dropWhile p = c :: rest → p c = false := by
  intro l
  induction l with
  | nil => intro c rest h; simp [List.dropWhile] at h
  | cons a as ih =>
    intro c rest h
    by_cases hp : p a = true
    · rw [List.dropWhile_cons_of_pos hp] at h
      exact ih c rest h
    · rw [List.dropWhile_cons_of_neg hp] at h
      rcases List.cons.inj h with ⟨h1, _⟩
      rw [← h1]
      simpa using hp

theorem endsNonWs_append_right {a b : List Char} (hb : b ≠ []) :
    endsNonWs (a ++ b) ↔ endsNonWs b := by
  unfold endsNonWs
  rw [List.reverse_append]
  cases hrev : b.reverse with
  | nil => exact absurd (List.reverse_eq_nil_iff.1 hrev) hb
  | cons c rest => simp

theorem lstrip_ne_nil {l : List Char} (h : endsNonWs l) : lstrip l ≠ [] := by
  intro hc
  unfold endsNonWs at h
  cases hrev : l.reverse with
  | nil => rw [hrev] at h; exact h
  | cons c rest =>
    rw [hrev] at h
    have h' : pyIsSpace c = false := h
    have hall : ∀ x ∈ l, pyIsSpace x = true := List.dropWhile_eq_nil_iff.1 hc
    have hcl : c ∈ l := by
      rw [← List.mem_reverse, hrev]
      exact List.mem_cons_self _ _
    rw [hall c hcl] at h'
    simp at h'

theorem endsNonWs_lstrip {l : List Char} (h : endsNonWs l) : endsNonWs (lstrip l) := by
  have hne : lstrip l ≠ [] := lstrip_ne_nil h
  have hdec : l.takeWhile pyIsSpace ++ l.dropWhile pyIsSpace = l :=
    List.takeWhile_append_dropWhile pyIsSpace l
  rw [← hdec] at h
  exact (endsNonWs_append_right hne).1 h

theorem rstrip_eq_self {l : List Char} (h : endsNonWs l) : rstrip l = l := by
  unfold rstrip
  cases hrev : l.reverse with
  | nil =>
    rw [List.reverse_eq_nil_iff.1 hrev]
    rfl
  | cons c rest =>
    have h' : pyIsSpace c = false := by
      unfold endsNonWs at h
      rw [hrev] at h
      exact h
    rw [List.dropWhile_cons_of_neg (by rw [h']; exact Bool.false_ne_true)]
    rw [← hrev, List.reverse_reverse]

theorem pyStrip_eq_lstrip {l : List Char} (h : endsNonWs l) : pyStrip l = lstrip l := by
  unfold pyStrip
  exact rstrip_eq_self (endsNonWs_lstrip h)

theorem lstrip_lstrip (l : List Char) : lstrip (lstrip l) = lstrip l := by
  unfold lstrip
  cases h : l.dropWhile pyIsSpace with
  | nil => simp
  | cons c rest =>
    have hc := dropWhile_head_not pyIsSpace l c rest h
    rw [List.dropWhile_cons_of_neg (by rw [hc]; exact Bool.false_ne_true)]

theorem lstrip_append {a : List Char} (b : List Char) (h : lstrip a ≠ []) :
    lstrip (a ++ b) = lstrip a ++ b := by
  induction a with
  | nil => exact absurd rfl h
  | cons c cs ih =>
    unfold lstrip at *
    by_cases hc : pyIsSpace c = true
    · rw [List.dropWhile_cons_of_pos hc] at h
      rw [List.cons_append, List.dropWhile_cons_of_pos hc,
        List.dropWhile_cons_of_pos hc]
      exact ih h
    · have hc' : ¬(pyIsSpace c = true) := hc
      rw [List.cons_append, List.dropWhile_cons_of_neg hc',
        List.dropWhile_cons_of_neg hc', List.cons_append]

theorem lstrip_append_ws {a : List Char} (b : List Char)
    (h : ∀ c ∈ a, pyIsSpace c = true) : lstrip (a ++ b) = lstrip b := by
  induction a with
  | nil => rfl
  | cons c cs ih =>
    unfold lstrip at *
    rw [List.cons_append, List.dropWhile_cons_of_pos (h c (List.mem_cons_self _ _))]
    exact ih (fun x hx => h x (List.mem_cons_of_mem _ hx))

theorem endsNonWs_pyStrip {t : List Char} (h : pyStrip t ≠ []) : endsNonWs (pyStrip t) := by
  unfold pyStrip rstrip at *
  cases hy : (lstrip t).reverse.dropWhile pyIsSpace with
  | nil => rw [hy] at h; exact absurd rfl h
  | cons c rest =>
    unfold endsNonWs
    rw [List.reverse_reverse]
    exact dropWhile_head_not pyIsSpace _ c rest hy

theorem endsNonWs_drop {B : List Char} {n : Nat} (h : endsNonWs B) (hn : n < B.length) :
    endsNonWs (B.drop n) := by
  have hne : B.drop n ≠ [] := by
    intro hc
    have := List.length_drop n B
    rw [hc] at this
    simp at this
    omega
  have hdec : B.take n ++ B.drop n = B := List.take_append_drop n B
  rw [← hdec] at h
  exact (endsNonWs_append_right hne).1 h

/-! ## `lastN` lemmas -/

theorem lastN_zero (l : List Char) : lastN l 0 = [] := by
  unfold lastN
  simp

theorem lastN_full (l : List Char) : lastN l l.length = l := by
  unfold lastN
  simp

theorem lastN_append_of_le {w c : List Char} {k : Nat} (h : k ≤ c.length) :
    lastN (w ++ c) k = lastN c k := by
  unfold lastN
  rw [List.length_append]
  rw [List.drop_append_eq_append_drop]
  have h1 : w.length + c.length - k - w.length = c.length - k := by omega
  have h2 : w.length ≤ w.length + c.length - k := by omega
  rw [List.drop_eq_nil_of_le h2, h1, List.nil_append]

theorem lastN_append_of_ge {w c : List Char} {k : Nat} (h1 : c.length ≤ k)
    (h2 : k ≤ w.length + c.length) :
    lastN (w ++ c) k = lastN w (k - c.length) ++ c := by
  unfold lastN
  rw [List.length_append]
  rw [List.drop_append_eq_append_drop]
  have ha : w.length + c.length - k = w.length - (k - c.length) := by omega
  rw [ha]
  have hb : w.length - (k - c.length) - w.length = 0 := by omega
  rw [hb, List.drop_zero]

theorem mem_lastN {l : List Char} {k : Nat} {x : Char} (h : x ∈ lastN l k) : x ∈ l := by
  unfold lastN at h
  exact List.mem_of_mem_drop h

/-! ## The overlap-seed lemma -/

theorem endsNonWs_ne_nil {l : List Char} (h : endsNonWs l) : l ≠ [] := by
  intro hc
  subst hc
  exact h

theorem endsNonWs_ovSlice {B : List Char} (overlap : Nat) (h : endsNonWs B) :
    endsNonWs (ovSlice B overlap) := by
  unfold ovSlice pySliceLast
  by_cases h1 : overlap < B.length
  · rw [if_pos h1]
    by_cases h0 : overlap = 0
    · rw [if_pos h0]; exact h
    · rw [if_neg h0]
      have hlen : 0 < B.length := by
        have := endsNonWs_ne_nil h
        cases B with
        | nil => exact absurd rfl this
        | cons c cs => simp
      exact endsNonWs_drop h (by omega)
  · rw [if_neg h1]; exact h

/-- The corrected seed property: the claim's suffix of the *stripped* emitted
chunk, after dropping leading whitespace, is a prefix of (the left strip of)
the overlap seed that the code slices from the *unstripped* buffer. -/
theorem amendedSeed (overlap : Nat) {B : List Char} (hB : endsNonWs B) :
    lstrip (lastN (pyStrip B) (min overlap (pyStrip B).length)) <+:
      lstrip (ovSlice B overlap) := by
  by_cases hov0 : overlap = 0
  · subst hov0
    rw [Nat.zero_min, lastN_zero]
    exact List.nil_prefix
  · have hC : pyStrip B = lstrip B := pyStrip_eq_lstrip hB
    rw [hC]
    have hdec : B.takeWhile pyIsSpace ++ lstrip B = B :=
      List.takeWhile_append_dropWhile pyIsSpace B
    have hWws : ∀ x ∈ B.takeWhile pyIsSpace, pyIsSpace x = true :=
      fun x hx => List.mem_takeWhile_imp hx
    have hCne : lstrip B ≠ [] := lstrip_ne_nil hB
    have hClstrip : lstrip (lstrip B) = lstrip B := lstrip_lstrip B
    have hlenB : (B.takeWhile pyIsSpace).length + (lstrip B).length = B.length := by
      have := congrArg List.length hdec
      rw [List.length_append] at this
      exact this
    unfold ovSlice pySliceLast
    by_cases hovB : overlap < B.length
    · rw [if_pos hovB, if_neg hov0]
      by_cases hoc : overlap ≤ (lstrip B).length
      · rw [min_eq_left hoc]
        have hcast : lastN B overlap = lastN (lstrip B) overlap := by
          conv_lhs => rw [← hdec]
          exact lastN_append_of_le hoc
        show lstrip (lastN (lstrip B) overlap) <+: lstrip (lastN B overlap)
        rw [hcast]
      · push_neg at hoc
        rw [min_eq_right (le_of_lt hoc)]
        rw [lastN_full, hClstrip]
        have hsplit : lastN B overlap =
            lastN (B.takeWhile pyIsSpace) (overlap - (lstrip B).length) ++ lstrip B := by
          conv_lhs => rw [← hdec]
          exact lastN_append_of_ge (le_of_lt hoc) (by omega)
        show lstrip B <+: lstrip (lastN B overlap)
        rw [hsplit]
        rw [lstrip_append_ws _ (fun x hx => hWws x (mem_lastN hx))]
        rw [hClstrip]
    · rw [if_neg hovB]
      have hle : (lstrip B).length ≤ overlap := by omega
      rw [min_eq_right hle, lastN_full, hClstrip]

/-! ## The chunking-loop invariant -/

theorem chunkStep_inv (fn cat intent : String) (chunk_size overlap : Nat) (ft : String)
    (st : ChunkState) (s : List Char) (hs1 : s ≠ []) (hs2 : endsNonWs s)
    (i1 : List.Chain' (overlapRelStripped overlap) st.chunks)
    (i2 : st.current = [] → st.chunks = [])
    (i3 : st.current ≠ [] → endsNonWs st.current)
    (i4 : ∀ clast, st.chunks.getLast? = some clast →
      lstrip (lastN clast.content.data (min overlap clast.content.length)) <+:
        lstrip st.current) :
    List.Chain' (overlapRelStripped overlap)
        (chunkStep fn cat intent chunk_size overlap ft st s).chunks ∧
      ((chunkStep fn cat intent chunk_size overlap ft st s).current = [] →
        (chunkStep fn cat intent chunk_size overlap ft st s).chunks = []) ∧
      ((chunkStep fn cat intent chunk_size overlap ft st s).current ≠ [] →
        endsNonWs (chunkStep fn cat intent chunk_size overlap ft st s).current) ∧
      (∀ clast, (chunkStep fn cat intent chunk_size overlap ft st s).chunks.getLast?
          = some clast →
        lstrip (lastN clast.content.data (min overlap clast.content.length)) <+:
          lstrip (chunkStep fn cat intent chunk_size overlap ft st s).current) := by
  unfold chunkStep
  split
  case isTrue hcond =>
    obtain ⟨hsz, hcur⟩ := hcond
    have hends : endsNonWs st.current := i3 hcur
    have hOends : endsNonWs (ovSlice st.current overlap) := endsNonWs_ovSlice overlap hends
    have hOne : lstrip (ovSlice st.current overlap) ≠ [] := lstrip_ne_nil hOends
    have hcurne : (' ' :: s : List Char) ≠ [] := by simp
    have hsplit : lstrip (ovSlice st.current overlap ++ ' ' :: s)
        = lstrip (ovSlice st.current overlap) ++ ' ' :: s :=
      lstrip_append _ hOne
    refine ⟨?_, ?_, ?_, ?_⟩
    · rw [List.chain'_append]
      refine ⟨i1, List.chain'_singleton _, ?_⟩
      intro x hx y hy
      have hx' : st.chunks.getLast? = some x := hx
      have hy' : y = create_chunk_dict (String.mk (pyStrip st.current)) fn cat intent
          st.chunk_index ft := by
        have := hy
        simp at this
        exact this.symm
      rw [hy']
      unfold overlapRelStripped
      show lstrip (lastN x.content.data (min overlap x.content.length)) <+:
        pyStrip st.current
      rw [pyStrip_eq_lstrip hends]
      exact i4 x hx'
    · intro hc
      simp at hc
    · intro _
      show endsNonWs (ovSlice st.current overlap ++ ' ' :: s)
      refine (endsNonWs_append_right hcurne).2 ?_
      show endsNonWs ([' '] ++ s)
      exact (endsNonWs_append_right hs1).2 hs2
    · intro clast hcl
      rw [List.getLast?_concat] at hcl
      have hcl' : clast = create_chunk_dict (String.mk (pyStrip st.current)) fn cat intent
          st.chunk_index ft := by
        simpa using hcl.symm
      rw [hcl']
      show lstrip (lastN (pyStrip st.current)
          (min overlap (pyStrip st.current).length)) <+:
        lstrip (ovSlice st.current overlap ++ ' ' :: s)
      rw [hsplit]
      exact (amendedSeed overlap hends).trans (List.prefix_append _ _)
  case isFalse hcond =>
    refine ⟨i1, ?_, ?_, ?_⟩
    · intro hc
      by_cases hcur : st.current.isEmpty
      · rw [if_pos hcur] at hc
        exact absurd hc hs1
      · rw [if_neg hcur] at hc
        simp at hc
    · intro _
      by_cases hcur : st.current.isEmpty
      · rw [if_pos hcur]
        exact hs2
      · rw [if_neg hcur]
        show endsNonWs (st.current ++ ' ' :: s)
        refine (endsNonWs_append_right (by simp)).2 ?_
        show endsNonWs ([' '] ++ s)
        exact (endsNonWs_append_right hs1).2 hs2
    · intro clast hcl
      by_cases hcur : st.current.isEmpty
      · have hchunks : st.chunks = [] := i2 (by simpa [List.isEmpty_iff] using hcur)
        rw [hchunks] at hcl
        simp at hcl
      · rw [if_neg hcur]
        have hcurne : st.current ≠ [] := by
          simpa [List.isEmpty_iff] using hcur
        have hends : endsNonWs st.current := i3 hcurne
        have hlne : lstrip st.current ≠ [] := lstrip_ne_nil hends
        show lstrip (lastN clast.content.data (min overlap clast.content.length)) <+:
          lstrip (st.current ++ ' ' :: s)
        rw [lstrip_append _ hlne]
        exact (i4 clast hcl).trans (List.prefix_append _ _)

theorem chunk_fold_inv (fn cat intent : String) (chunk_size overlap : Nat) (ft : String) :
    ∀ (sents : List (List Char)) (st : ChunkState),
    (∀ s ∈ sents, s ≠ [] ∧ endsNonWs s) →
    List.Chain' (overlapRelStripped overlap) st.chunks →
    (st.current = [] → st.chunks = []) →
    (st.current ≠ [] → endsNonWs st.current) →
    (∀ clast, st.chunks.getLast? = some clast →
      lstrip (lastN clast.content.data (min overlap clast.content.length)) <+:
        lstrip st.current) →
    List.Chain' (overlapRelStripped overlap)
        (sents.foldl (chunkStep fn cat intent chunk_size overlap ft) st).chunks ∧
      ((sents.foldl (chunkStep fn cat intent chunk_size overlap ft) st).current = [] →
        (sents.foldl (chunkStep fn cat intent chunk_size overlap ft) st).chunks = []) ∧
      ((sents.foldl (chunkStep fn cat intent chunk_size overlap ft) st).current ≠ [] →
        endsNonWs (sents.foldl (chunkStep fn cat intent chunk_size overlap ft) st).current) ∧
      (∀ clast,
        (sents.foldl (chunkStep fn cat intent chunk_size overlap ft) st).chunks.getLast?
          = some clast →
        lstrip (lastN clast.content.data (min overlap clast.content.length)) <+:
          lstrip (sents.foldl (chunkStep fn cat intent chunk_size overlap ft) st).current) := by
  intro sents
  induction sents with
  | nil =>
    intro st _ i1 i2 i3 i4
    exact ⟨i1, i2, i3, i4⟩
  | cons s rest ih =>
    intro st hsents i1 i2 i3 i4
    have hs := hsents s (List.mem_cons_self _ _)
    obtain ⟨j1, j2, j3, j4⟩ :=
      chunkStep_inv fn cat intent chunk_size overlap ft st s hs.1 hs.2 i1 i2 i3 i4
    exact ih _ (fun x hx => hsents x (List.mem_cons_of_mem _ hx)) j1 j2 j3 j4

theorem chunks_assembled (fn cat intent : String) (overlap : Nat) (ft : String)
    (F : ChunkState)
    (i1 : List.Chain' (overlapRelStripped overlap) F.chunks)
    (_i2 : F.current = [] → F.chunks = [])
    (i3 : F.current ≠ [] → endsNonWs F.current)
    (i4 : ∀ clast, F.chunks.getLast? = some clast →
      lstrip (lastN clast.content.data (min overlap clast.content.length)) <+:
        lstrip F.current) :
    List.Chain' (overlapRelStripped overlap)
      (if !(pyStrip F.current).isEmpty then
        F.chunks ++ [create_chunk_dict (String.mk (pyStrip F.current)) fn cat intent
          F.chunk_index ft]
      else F.chunks) := by
  split
  case isTrue hcond =>
    have hstrip_ne : pyStrip F.current ≠ [] := by
      simpa [List.isEmpty_iff] using hcond
    have hcur_ne : F.current ≠ [] := by
      intro hc
      rw [hc] at hstrip_ne
      exact hstrip_ne rfl
    have hends : endsNonWs F.current := i3 hcur_ne
    rw [List.chain'_append]
    refine ⟨i1, List.chain'_singleton _, ?_⟩
    intro x hx y hy
    have hx' : F.chunks.getLast? = some x := hx
    have hy' : y = create_chunk_dict (String.mk (pyStrip F.current)) fn cat intent
        F.chunk_index ft := by
      have := hy
      simp at this
      exact this.symm
    rw [hy']
    unfold overlapRelStripped
    show lstrip (lastN x.content.data (min overlap x.content.length)) <+:
      pyStrip F.current
    rw [pyStrip_eq_lstrip hends]
    exact i4 x hx'
  case isFalse =>
    exact i1

/-- **C3, amended.**  Overlap invariant as the code actually guarantees it:
for every input text and parameters with `overlap < chunk_size`, consecutive
chunks `C_i, C_{i+1}` satisfy: the last `min(overlap, len(C_i))` characters of
`C_i`, *after removing leading whitespace*, are a prefix of `C_{i+1}`'s
content.  (The emitted chunk is the `strip()`ped buffer while the overlap seed
is sliced from the unstripped buffer, so a leading space of the seed is absent
from the stored chunk.) -/
theorem C3_amended (text filename category intent : String)
    (chunk_size overlap : Nat) (ft : String) (_hov : overlap < chunk_size) :
    List.Chain' (overlapRelStripped overlap)
      (create_chunks text filename category intent chunk_size overlap ft) := by
  have hsents : ∀ s ∈ ((splitOnDelims text.data).map pyStrip).filter
      (fun s => !s.isEmpty), s ≠ [] ∧ endsNonWs s := by
    intro s hs
    rcases List.mem_filter.1 hs with ⟨hmem, hne⟩
    have hne' : s ≠ [] := by simpa [List.isEmpty_iff] using hne
    rcases List.mem_map.1 hmem with ⟨t, _, ht⟩
    refine ⟨hne', ?_⟩
    rw [← ht]
    refine endsNonWs_pyStrip ?_
    rw [ht]
    exact hne'
  obtain ⟨i1, i2, i3, i4⟩ := chunk_fold_inv filename category intent chunk_size overlap ft
    (((splitOnDelims text.data).map pyStrip).filter (fun s => !s.isEmpty))
    ⟨[], [], 0⟩ hsents (by simp) (fun _ => rfl) (fun hc => absurd rfl hc)
    (fun clast hcl => by simp at hcl)
  unfold create_chunks
  exact chunks_assembled filename category intent overlap ft _ i1 i2 i3 i4

set_option maxRecDepth 4000 in
/-- **C3, counterexample.**  The overlap invariant as literally claimed is
false: for the text `"abc def. ghi jkl."` with `chunk_size = 10` and
`overlap = 4 < 10` the chunks are `"abc def"` and `"def ghi jkl"`, and the
last 4 characters of the first chunk — `" def"`, sliced from the unstripped
buffer — are not a prefix of the second chunk, which starts with `"def"`. -/
theorem C3_counterexample :
    4 < 10 ∧
    ¬ List.Chain' (overlapRel 4)
      (create_chunks "abc def. ghi jkl." "f.txt" "general" "general" 10 4 "txt") := by
  refine ⟨by omega, ?_⟩
  intro h
  have hc : create_chunks "abc def. ghi jkl." "f.txt" "general" "general" 10 4 "txt"
      = [{ content := "abc def", title := "abc def", keywords := [],
           category := "general", intent := "general", filename := "f.txt",
           file_type := "txt", chunk_index := 0, length := 7 },
         { content := "def ghi jkl", title := "def ghi jkl", keywords := [],
           category := "general", intent := "general", filename := "f.txt",
           file_type := "txt", chunk_index := 1, length := 11 }] := by decide
  rw [hc] at h
  have hpre := (List.chain'_cons.1 h).1
  have hnot : ¬ (lastN ("abc def" : String).data (min 4 ("abc def" : String).length) <+:
      ("def ghi jkl" : String).data) := by decide
  exact hnot hpre

set_option maxRecDepth 4000 in
/-- **C3, amended witness.**  The amended invariant instantiated on the same
concrete input: `lstrip " def" = "def"` is a prefix of `"def ghi jkl"`. -/
theorem C3_amended_witness :
    List.Chain' (overlapRelStripped 4)
      (create_chunks "abc def. ghi jkl." "f.txt" "general" "general" 10 4 "txt") :=
  C3_amended "abc def. ghi jkl." "f.txt" "general" "general" 10 4 "txt" (by omega)

/-! ## Keyword well-formedness helpers -/

theorem char_toNat_ofNat {n : Nat} (h : n < 55296) : (Char.ofNat n).toNat = n := by
  rw [Char.ofNat, dif_pos (Or.inl h)]
  rfl

theorem char_le_iff_toNat {a b : Char} : a ≤ b ↔ a.toNat ≤ b.toNat := by
  rw [Char.le_def, UInt32.le_def, BitVec.le_def]
  exact Iff.rfl

theorem pyLowerChar_not_upper (c : Char) :
    ¬(65 ≤ (pyLowerChar c).toNat ∧ (pyLowerChar c).toNat ≤ 90) := by
  unfold pyLowerChar
  split
  case isTrue h =>
    rw [char_toNat_ofNat (by omega)]
    omega
  case isFalse h =>
    split
    case isTrue h2 =>
      rw [char_toNat_ofNat (by omega)]
      omega
    case isFalse h2 =>
      intro hc
      exact h ⟨hc.1, hc.2⟩

theorem wordRunsAux_chars : ∀ (l acc r : List Char), r ∈ wordRunsAux acc l →
    ∀ c ∈ r, c ∈ acc ∨ c ∈ l := by
  intro l
  induction l with
  | nil =>
    intro acc r hr c hc
    unfold wordRunsAux at hr
    split at hr
    · cases hr
    · rcases List.mem_singleton.1 hr with rfl
      exact Or.inl (List.mem_reverse.1 hc)
  | cons a as ih =>
    intro acc r hr c hc
    unfold wordRunsAux at hr
    by_cases hw : pyIsWordChar a = true
    · rw [if_pos hw] at hr
      rcases ih (a :: acc) r hr c hc with h | h
      · rcases List.mem_cons.1 h with h' | h'
        · right; rw [h']; exact List.mem_cons_self _ _
        · exact Or.inl h'
      · exact Or.inr (List.mem_cons_of_mem _ h)
    · rw [if_neg hw] at hr
      by_cases hacc : acc.isEmpty
      · rw [if_pos hacc] at hr
        rcases ih [] r hr c hc with h | h
        · cases h
        · exact Or.inr (List.mem_cons_of_mem _ h)
      · rw [if_neg hacc] at hr
        rcases List.mem_cons.1 hr with h' | h'
        · left
          rw [h'] at hc
          exact List.mem_reverse.1 hc
        · rcases ih [] r h' c hc with h | h
          · cases h
          · exact Or.inr (List.mem_cons_of_mem _ h)

theorem freqfold_keys (keywords : List String) :
    ∀ (ws : List String) (d : List (String × Nat)),
    (∀ p ∈ d, keywords.contains p.1 = true) →
    ∀ p ∈ ws.foldl (freqStep keywords) d, keywords.contains p.1 = true := by
  intro ws
  induction ws with
  | nil => intro d hd; exact hd
  | cons w rest ih =>
    intro d hd
    refine ih _ ?_
    intro p hp
    unfold freqStep at hp
    split at hp
    case isTrue hcont =>
      split at hp
      · rcases mem_dictModify hp with ⟨v₀, _, hp'⟩ | hp'
        · rw [hp']; exact hcont
        · exact hd p hp'
      · rcases mem_dictSet hp with hp' | hp'
        · rw [hp']; exact hcont
        · exact hd p hp'
    case isFalse => exact hd p hp

/-- **C10.**  Every keyword produced by `_extract_keywords` is at least 4
characters long, is not a stop word, and consists solely of lowercase ASCII
letters `a`–`z` — in particular accented or otherwise non-ASCII tokens never
appear in a chunk's keyword list. -/
theorem C10_keyword_wellformed (text kw : String) (max_keywords : Nat)
    (h : kw ∈ extract_keywords text max_keywords) :
    4 ≤ kw.length ∧ kw ∉ stop_words ∧ ∀ c ∈ kw.data, 'a' ≤ c ∧ c ≤ 'z' := by
  simp only [extract_keywords] at h
  rcases List.mem_map.1 h with ⟨p, hp, hpk⟩
  have hp2 := mem_sortDesc.1 (List.mem_of_mem_take hp)
  have hkey := freqfold_keys _ _ _ (fun q hq => absurd hq (List.not_mem_nil q)) p hp2
  rw [hpk] at hkey
  have hmemkw : kw ∈ ((findall_letters (pyLowerS text).data).map
      (fun r => String.mk r)).dedup.filter
      (fun w => !(stop_words.contains w) && decide (3 < w.length)) :=
    List.elem_iff.1 hkey
  rcases List.mem_filter.1 hmemkw with ⟨hdedup, hpred⟩
  simp only [Bool.and_eq_true, Bool.not_eq_true', decide_eq_true_eq] at hpred
  have hstop : kw ∉ stop_words := by
    intro hmem
    have h1 : stop_words.contains kw = true := List.elem_iff.2 hmem
    rw [hpred.1] at h1
    simp at h1
  refine ⟨by omega, hstop, ?_⟩
  rcases List.mem_map.1 (List.mem_dedup.1 hdedup) with ⟨r, hr, hrk⟩
  rcases List.mem_filter.1 hr with ⟨hruns, hprops⟩
  simp only [Bool.and_eq_true, decide_eq_true_eq, List.all_eq_true] at hprops
  intro c hc
  have hcr : c ∈ r := by
    rw [← hrk] at hc
    exact hc
  have hletter := hprops.1 c hcr
  simp only [isAsciiLetterB, Bool.or_eq_true, Bool.and_eq_true, decide_eq_true_eq]
    at hletter
  have hctext : c ∈ (pyLowerS text).data := by
    rcases wordRunsAux_chars (pyLowerS text).data [] r hruns c hcr with h' | h'
    · cases h'
    · exact h'
  have hlowered : ∃ c₀, pyLowerChar c₀ = c := by
    rcases List.mem_map.1 hctext with ⟨c₀, _, hc₀⟩
    exact ⟨c₀, hc₀⟩
  have hnotupper : ¬(65 ≤ c.toNat ∧ c.toNat ≤ 90) := by
    rcases hlowered with ⟨c₀, hc₀⟩
    rw [← hc₀]
    exact pyLowerChar_not_upper c₀
  rcases hletter with ⟨h97, h122⟩ | ⟨h65, h90⟩
  · constructor
    · rw [char_le_iff_toNat]
      exact h97
    · rw [char_le_iff_toNat]
      exact h122
  · exact absurd ⟨h65, h90⟩ hnotupper

set_option maxRecDepth 4000 in
/-- Witness for C10 at the concrete text `"Conditions conditions tarifs"`,
whose extracted keyword list contains `"conditions"`. -/
theorem C10_witness :
    "conditions" ∈ extract_keywords "Conditions conditions tarifs" 10 ∧
    (4 ≤ ("conditions" : String).length ∧ "conditions" ∉ stop_words ∧
      ∀ c ∈ ("conditions" : String).data, 'a' ≤ c ∧ c ≤ 'z') :=
  ⟨by decide, C10_keyword_wellformed "Conditions conditions tarifs" "conditions" 10 (by decide)⟩
